import Mathlib

/-!
# Verification of the p2panda core data model and materialisation engine

Shallow embedding of `p2panda-rs`: the operation model
(`src/operation/operation.rs`), the document builder and materialiser
(`src/document/document.rs`) and the CDDL schema generator
(`src/cddl/generator.rs`), together with proofs of the specification's
claims about them.

Modelling conventions:
* Rust `String` keys and 68-hex-character hashes are Lean `String`s;
  `BTreeMap<String, V>` is a strictly key-sorted association list
  (`List (String × V)`) maintained by `insertSorted`, which mirrors
  `BTreeMap::insert` (insert at the ordered position, replace on equal key).
* `i64` is modelled as `Int`; `f64` is modelled by its 64-bit pattern
  (a `Nat`), since the spec demands bit-exact float equality.
* Fallible Rust functions return `Except`; an `unwrap` on a value that
  the surrounding code guarantees to exist is modelled by an explicit
  (unreachable) error constructor.
* The `Graph`, `DocumentView` and `OperationWithMeta` types and the
  byte-level CBOR serialisation live outside the provided sources; they
  are modelled from the spec (each such definition says so in its doc
  comment).
-/

deriving instance DecidableEq for Except

namespace P2Panda

section AssocMap

variable {β : Type}

/-- Byte-lexicographic comparison of keys as a `Bool` (the order of Rust
`String`/`BTreeMap<String, _>` keys), kept kernel-reducible by deciding on
the character lists. -/
def strLtb (a b : String) : Bool := decide (a.data < b.data)

/-- Embeds `BTreeMap::insert` on a strictly key-sorted association list: insert the
pair at its ordered position, replacing an existing binding of the same key. -/
def insertSorted (k : String) (v : β) : List (String × β) → List (String × β)
  | [] => [(k, v)]
  | (k', v') :: rest =>
    if strLtb k k' then (k, v) :: (k', v') :: rest
    else if k = k' then (k, v) :: rest
    else (k', v') :: insertSorted k v rest

/-- Embeds `BTreeMap::get` on an association list (first binding wins). -/
def getValue (m : List (String × β)) (q : String) : Option β :=
  match m with
  | [] => none
  | (k, v) :: rest => if q = k then some v else getValue rest q

/-- Embeds `BTreeMap::contains_key` on an association list. -/
def hasKey (m : List (String × β)) (q : String) : Bool :=
  match m with
  | [] => false
  | (k, _) :: rest => if q = k then true else hasKey rest q

/-- Key list of an association list. -/
def keysOf (m : List (String × β)) : List String :=
  m.map Prod.fst

/-- Strict sortedness of an association list by key. -/
def SortedKeys (m : List (String × β)) : Prop :=
  List.Sorted (fun a b => a.1 < b.1) m

end AssocMap

section AssocRemove

variable {β : Type}

/-- Embeds `BTreeMap::remove`: drop the (first) binding of a key from an
association list. -/
def removeKey (q : String) : List (String × β) → List (String × β)
  | [] => []
  | (k, v) :: rest => if q = k then rest else (k, v) :: removeKey q rest

end AssocRemove

/-- A YASMF hash: an opaque 68-hex-character content address, compared
byte-lexicographically on its hex representation (`src/hash`, not under the
provided sources; the spec fixes equality and ordering to be string
comparison, which is exactly Lean `String` order on hex strings). -/
abbrev Hash := String

/-- Embeds `OperationValue` from `src/operation/operation.rs`: the closed tagged
union of field values.  `Float(f64)` is represented by its 64-bit pattern
(spec: float equality is bit-exact), `Integer(i64)` by `Int`. -/
inductive OperationValue where
  | boolean (b : Bool)
  | integer (i : Int)
  | float (bits : Nat)
  | text (s : String)
  | relation (h : Hash)
deriving DecidableEq

/-- Errors of the `OperationFields` mutators
(`EmptyFields` etc. live in `OperationError`). -/
inductive OperationFieldsError where
  | fieldDuplicate
  | unknownField
deriving DecidableEq

/-- Errors of `Operation::validate` (`src/operation/operation.rs`). -/
inductive OperationError where
  | emptyFields
  | emptyPreviousOperations
  | existingPreviousOperations
deriving DecidableEq

/-- Embeds `OperationFields` from `src/operation/operation.rs`: a
`BTreeMap<String, OperationValue>`, modelled as a key-sorted association
list. -/
structure OperationFields where
  entries : List (String × OperationValue)
deriving DecidableEq

namespace OperationFields

/-- Embeds `OperationFields::new`. -/
def new : OperationFields := ⟨[]⟩

/-- Embeds `OperationFields::len`. -/
def len (f : OperationFields) : Nat := f.entries.length

/-- Embeds `OperationFields::is_empty`. -/
def is_empty (f : OperationFields) : Bool := f.entries.isEmpty

/-- Embeds `OperationFields::add`: fails with `FieldDuplicate` when the key exists.
The Rust method mutates `&mut self` and returns `Result<(), _>`; the model
returns the result paired with the post-state. -/
def add (f : OperationFields) (name : String) (value : OperationValue) :
    Except OperationFieldsError Unit × OperationFields :=
  if hasKey f.entries name then (Except.error OperationFieldsError.fieldDuplicate, f)
  else (Except.ok (), ⟨insertSorted name value f.entries⟩)

/-- Embeds `OperationFields::update`: fails with `UnknownField` when the key is
absent, otherwise overwrites the binding. -/
def update (f : OperationFields) (name : String) (value : OperationValue) :
    Except OperationFieldsError Unit × OperationFields :=
  if !hasKey f.entries name then (Except.error OperationFieldsError.unknownField, f)
  else (Except.ok (), ⟨insertSorted name value f.entries⟩)

/-- Embeds `OperationFields::remove`: fails with `UnknownField` when the key is
absent. -/
def remove (f : OperationFields) (name : String) :
    Except OperationFieldsError Unit × OperationFields :=
  if !hasKey f.entries name then (Except.error OperationFieldsError.unknownField, f)
  else (Except.ok (), ⟨removeKey name f.entries⟩)

/-- Embeds `OperationFields::get`: `contains_key` guard then `get`. -/
def get (f : OperationFields) (name : String) : Option OperationValue :=
  if !hasKey f.entries name then none
  else getValue f.entries name

/-- Embeds `OperationFields::keys`. -/
def keys (f : OperationFields) : List String := keysOf f.entries

end OperationFields

/-- Embeds `OperationAction` from `src/operation/operation.rs`. -/
inductive OperationAction where
  | create
  | update
  | delete
deriving DecidableEq

/-- Embeds `OperationVersion`: the single current version 1. -/
inductive OperationVersion where
  | vDefault
deriving DecidableEq

/-- Embeds `Operation` from `src/operation/operation.rs`. -/
structure Operation where
  action : OperationAction
  schema : Hash
  version : OperationVersion
  previous_operations : Option (List Hash)
  id : Option Hash
  fields : Option OperationFields
deriving DecidableEq

namespace Operation

/-- Embeds `AsOperation::has_fields`. -/
def has_fields (op : Operation) : Bool := op.fields.isSome

/-- Embeds `AsOperation::has_previous_operations`. -/
def has_previous_operations (op : Operation) : Bool := op.previous_operations.isSome

/-- Embeds `AsOperation::is_create`. -/
def is_create (op : Operation) : Bool := op.action = OperationAction.create

/-- Embeds `AsOperation::is_update`. -/
def is_update (op : Operation) : Bool := op.action = OperationAction.update

/-- Embeds `AsOperation::is_delete`. -/
def is_delete (op : Operation) : Bool := op.action = OperationAction.delete

/-- Embeds `impl Validate for Operation` (`src/operation/operation.rs` lines
455-476), clause by clause.  `self.fields().unwrap().is_empty()` is guarded
by `has_fields` through the short-circuit `||`; `Option.getD` yields the
same value in every reachable case. -/
def validate (op : Operation) : Except OperationError Unit :=
  if !op.is_delete && (!op.has_fields || (op.fields.getD OperationFields.new).is_empty) then
    Except.error OperationError.emptyFields
  else if !op.is_create && !op.has_previous_operations then
    Except.error OperationError.emptyPreviousOperations
  else if op.is_create && op.has_previous_operations then
    Except.error OperationError.existingPreviousOperations
  else
    Except.ok ()

/-- Embeds `Operation::new_create`: construct, then `validate()?`. -/
def new_create (schema : Hash) (fields : OperationFields) : Except OperationError Operation :=
  let operation : Operation :=
    { action := OperationAction.create, schema := schema, version := OperationVersion.vDefault,
      previous_operations := none, id := none, fields := some fields }
  match operation.validate with
  | Except.ok _ => Except.ok operation
  | Except.error e => Except.error e

/-- Embeds `Operation::new_update`. -/
def new_update (schema : Hash) (id : Hash) (previous_operations : List Hash)
    (fields : OperationFields) : Except OperationError Operation :=
  let operation : Operation :=
    { action := OperationAction.update, schema := schema, version := OperationVersion.vDefault,
      previous_operations := some previous_operations, id := some id, fields := some fields }
  match operation.validate with
  | Except.ok _ => Except.ok operation
  | Except.error e => Except.error e

/-- Embeds `Operation::new_delete`. -/
def new_delete (schema : Hash) (id : Hash) (previous_operations : List Hash) :
    Except OperationError Operation :=
  let operation : Operation :=
    { action := OperationAction.delete, schema := schema, version := OperationVersion.vDefault,
      previous_operations := some previous_operations, id := some id, fields := none }
  match operation.validate with
  | Except.ok _ => Except.ok operation
  | Except.error e => Except.error e

end Operation

/-- Modelled from the spec: `OperationWithMeta` (spec §3) pairs an operation
with its content address (`operation_id`) and its author's public key; the
type itself lives in `src/operation/operation_with_meta.rs`, outside the
provided sources.  Accessors delegate to the inner operation as
`AsOperation` does. -/
structure OperationWithMeta where
  operation : Operation
  operation_id : Hash
  public_key : String
deriving DecidableEq

namespace OperationWithMeta

/-- Embeds `AsOperation::is_create` for `OperationWithMeta`. -/
def is_create (op : OperationWithMeta) : Bool := op.operation.is_create

/-- Embeds `AsOperation::is_update` for `OperationWithMeta`. -/
def is_update (op : OperationWithMeta) : Bool := op.operation.is_update

/-- Embeds `AsOperation::is_delete` for `OperationWithMeta`. -/
def is_delete (op : OperationWithMeta) : Bool := op.operation.is_delete

/-- Embeds `AsOperation::schema` for `OperationWithMeta`. -/
def schema (op : OperationWithMeta) : Hash := op.operation.schema

/-- Embeds `AsOperation::previous_operations` for `OperationWithMeta`. -/
def previous_operations (op : OperationWithMeta) : Option (List Hash) :=
  op.operation.previous_operations

/-- Embeds `AsOperation::fields` for `OperationWithMeta`. -/
def fields (op : OperationWithMeta) : Option OperationFields := op.operation.fields

end OperationWithMeta

/-- Embeds `DocumentBuilderError` (`src/document`), together with the graph errors
that `Graph::sort` surfaces through it and the view errors of
`DocumentView`.  The last three variants are modelled from the spec: the
sources for `DocumentView`'s error type are not provided, and
`emptySortedGraph` stands for the `.unwrap()` panic in
`Document::resolve_view` on an empty sorted sequence (unreachable from
`build`). -/
inductive DocumentBuilderError where
  | noCreateOperation
  | moreThanOneCreateOperation
  | operationSchemaNotMatching
  | invalidOperationLink (id : String)
  | cycleDetected
  | unconnectedNode
  | viewNotCreateOperation
  | viewAppliedCreateOperation
  | emptySortedGraph
deriving DecidableEq

/-- Modelled from the spec: the causal `Graph` (spec §3, §4.3) — nodes keyed
by `operation_id` string (a `BTreeMap`-style keyed store), edges the reverse
of `previous_operations`.  `src/graph` is not under the provided sources. -/
structure Graph where
  nodes : List (String × OperationWithMeta)
  edges : List (String × String)
deriving DecidableEq

/-- Modelled from the spec: the result of `Graph::sort` — the emitted
sequence and the current graph tips (spec §4.3). -/
structure SortedGraphData where
  sorted : List OperationWithMeta
  current_graph_tips : List OperationWithMeta
deriving DecidableEq

namespace Graph

/-- Modelled from the spec: `Graph::new`. -/
def new : Graph := ⟨[], []⟩

/-- Modelled from the spec: `add_node(key, payload)` inserts or replaces a
node (spec §4.3). -/
def add_node (g : Graph) (key : String) (payload : OperationWithMeta) : Graph :=
  { g with nodes := insertSorted key payload g.nodes }

/-- Modelled from the spec: `add_link(from, to)` inserts an edge, returning
`false` if either endpoint is missing (spec §4.3). -/
def add_link (g : Graph) (fromKey toKey : String) : Bool × Graph :=
  if hasKey g.nodes fromKey && hasKey g.nodes toKey then
    (true, { g with edges := g.edges ++ [(fromKey, toKey)] })
  else
    (false, g)

/-- Modelled from the spec: the ready set of Kahn's algorithm — nodes not
yet emitted all of whose incoming edges come from emitted nodes (spec §4.3
step 3).  The node list is key-sorted, so the head of this list is the
lexicographically smallest ready key. -/
def readyKeys (nodes : List (String × OperationWithMeta)) (edges : List (String × String))
    (emitted : List String) : List String :=
  (keysOf nodes).filter
    (fun k => !emitted.contains k && edges.all (fun e => e.2 != k || emitted.contains e.1))

/-- Modelled from the spec: the emission loop of Kahn's algorithm,
repeatedly emitting the smallest ready key (spec §4.3 step 3).  Fuel is the
node count; the loop stops early when no node is ready (cycle). -/
def kahnGo (nodes : List (String × OperationWithMeta)) (edges : List (String × String)) :
    Nat → List String → List String
  | 0, emitted => emitted
  | Nat.succ fuel, emitted =>
    match readyKeys nodes edges emitted with
    | [] => emitted
    | k :: _ => kahnGo nodes edges fuel (emitted ++ [k])

/-- Modelled from the spec: `Graph::sort` (spec §4.3) — two or more roots
give `UnconnectedNode`; a stalled emission (nodes remaining) gives
`CycleDetected`; otherwise the emitted sequence and the out-degree-zero
tips are returned. -/
def sort (g : Graph) : Except DocumentBuilderError SortedGraphData :=
  let roots := (keysOf g.nodes).filter (fun k => g.edges.all (fun e => e.2 != k))
  if 2 ≤ roots.length then
    Except.error DocumentBuilderError.unconnectedNode
  else
    let order := kahnGo g.nodes g.edges g.nodes.length []
    if order.length = g.nodes.length then
      Except.ok
        { sorted := order.filterMap (fun k => getValue g.nodes k),
          current_graph_tips :=
            (g.nodes.filter (fun n => g.edges.all (fun e => e.1 != n.1))).map Prod.snd }
    else
      Except.error DocumentBuilderError.cycleDetected

end Graph

/-- Modelled from the spec: `DocumentView` (spec §4.4) — a
`BTreeMap<String, OperationValue>` produced by folding sorted operations.
`src/document/document_view.rs` is not under the provided sources. -/
structure DocumentView where
  entries : List (String × OperationValue)
deriving DecidableEq

namespace DocumentView

/-- Modelled from the spec: `DocumentView::get`. -/
def get (v : DocumentView) (name : String) : Option OperationValue :=
  getValue v.entries name

/-- Modelled from the spec: `DocumentView::try_from(create_op)` initialises
the view from a CREATE's field set (spec §4.4); anything else errors. -/
def try_from (op : OperationWithMeta) : Except DocumentBuilderError DocumentView :=
  if op.is_create then
    match op.operation.fields with
    | some f => Except.ok ⟨f.entries⟩
    | none => Except.error DocumentBuilderError.viewNotCreateOperation
  else
    Except.error DocumentBuilderError.viewNotCreateOperation

/-- Modelled from the spec: `apply_update(op)` — an UPDATE overlays each of
its fields onto the view, a DELETE leaves the view untouched (spec §4.4);
a CREATE cannot be applied. -/
def apply_update (v : DocumentView) (op : OperationWithMeta) :
    Except DocumentBuilderError DocumentView :=
  if op.is_update then
    Except.ok
      ⟨(op.operation.fields.getD OperationFields.new).entries.foldl
        (fun acc p => insertSorted p.1 p.2 acc) v.entries⟩
  else if op.is_delete then
    Except.ok v
  else
    Except.error DocumentBuilderError.viewAppliedCreateOperation

end DocumentView

/-- Embeds `DocumentMeta` (`src/document/document.rs`). -/
structure DocumentMeta where
  deleted : Bool := false
  edited : Bool := false
  operations : List OperationWithMeta := []
  current_graph_tips : List Hash := []
deriving DecidableEq

/-- Embeds `Document` (`src/document/document.rs`).  `author` is the author's
public key (`Author` is outside the provided sources). -/
structure Document where
  id : Hash
  author : String
  schema : Hash
  view : DocumentView
  meta : DocumentMeta
deriving DecidableEq

/-- Whether an operation's `previous_operations` references a hash outside
a given id list (the premise of the `InvalidOperationLink` claim). -/
def danglingPrev (ids : List Hash) (op : OperationWithMeta) : Bool :=
  match op.previous_operations with
  | some prevs => prevs.any (fun p => !ids.contains p)
  | none => false

/-- Whether every edge the link phase will add for an operation has both
endpoints among the given nodes. -/
def opLinksOkN (nodes : List (String × OperationWithMeta)) (op : OperationWithMeta) : Bool :=
  match op.previous_operations with
  | some prevs => prevs.all (fun p => hasKey nodes p && hasKey nodes op.operation_id)
  | none => true

/-- The edges contributed by one operation: one edge from each previous
operation hash to the operation itself. -/
def opEdges (op : OperationWithMeta) : List (String × String) :=
  (op.previous_operations.getD []).map (fun p => (p, op.operation_id))

/-- The edges contributed by a list of operations, in input order. -/
def allOpEdges : List OperationWithMeta → List (String × String)
  | [] => []
  | op :: rest => opEdges op ++ allOpEdges rest

/-- The node store produced by the node phase of `resolve_view`. -/
def foldNodes (operations : List OperationWithMeta) (g : Graph) : Graph :=
  operations.foldl (fun g op => g.add_node op.operation_id op) g

namespace Document

/-- The inner loop of the link phase of `Document::resolve_view`
(`src/document/document.rs` lines 56-68): add one edge per entry of
`previous_operations`, failing with `InvalidOperationLink` carrying the
operation's own id on a missing endpoint. -/
def addLinksForOp (g : Graph) (op : OperationWithMeta) :
    List Hash → Except DocumentBuilderError Graph
  | [] => Except.ok g
  | p :: rest =>
    let r := g.add_link p op.operation_id
    if r.1 then addLinksForOp r.2 op rest
    else Except.error (DocumentBuilderError.invalidOperationLink op.operation_id)

/-- The outer loop of the link phase of `Document::resolve_view`: process
every operation's `previous_operations` in input order. -/
def addAllLinks (g : Graph) : List OperationWithMeta → Except DocumentBuilderError Graph
  | [] => Except.ok g
  | op :: rest =>
    match op.previous_operations with
    | some prevs =>
      match addLinksForOp g op prevs with
      | Except.ok g' => addAllLinks g' rest
      | Except.error e => Except.error e
    | none => addAllLinks g rest

/-- The `try_for_each` application loop of `Document::resolve_view`
(line 81): apply every post-CREATE operation in sorted order. -/
def applyAll (v : DocumentView) : List OperationWithMeta → Except DocumentBuilderError DocumentView
  | [] => Except.ok v
  | op :: rest =>
    match v.apply_update op with
    | Except.ok v' => applyAll v' rest
    | Except.error e => Except.error e

/-- Embeds `Document::resolve_view` (`src/document/document.rs` lines 36-92).
The Rust single pass that adds nodes and sets the `deleted` flag is split
into a node fold plus an `any is_delete` scan (same result); `edited` is
set when more than one operation is present.  The `.unwrap()` on the first
sorted element is modelled by the `emptySortedGraph` error (unreachable
from `build`). -/
def resolve_view (operations : List OperationWithMeta) (meta : DocumentMeta) :
    Except DocumentBuilderError (DocumentView × DocumentMeta) :=
  let g0 : Graph := foldNodes operations Graph.new
  let meta1 : DocumentMeta :=
    { meta with
      edited := if 1 < operations.length then true else meta.edited,
      deleted := if operations.any (fun op => op.is_delete) then true else meta.deleted }
  match addAllLinks g0 operations with
  | Except.error e => Except.error e
  | Except.ok g1 =>
    match g1.sort with
    | Except.error e => Except.error e
    | Except.ok sorted_graph_data =>
      match sorted_graph_data.sorted with
      | [] => Except.error DocumentBuilderError.emptySortedGraph
      | first :: rest =>
        match DocumentView.try_from first with
        | Except.error e => Except.error e
        | Except.ok v0 =>
          match applyAll v0 rest with
          | Except.error e => Except.error e
          | Except.ok view =>
            Except.ok (view,
              { meta1 with
                operations := sorted_graph_data.sorted,
                current_graph_tips :=
                  sorted_graph_data.current_graph_tips.map
                    (fun operation => operation.operation_id) })

end Document

/-- Embeds `DocumentBuilder` (`src/document/document.rs`). -/
structure DocumentBuilder where
  operations : List OperationWithMeta
deriving DecidableEq

namespace DocumentBuilder

/-- Embeds `DocumentBuilder::new`. -/
def new (operations : List OperationWithMeta) : DocumentBuilder := ⟨operations⟩

/-- Embeds `DocumentBuilder::build` (`src/document/document.rs` lines 166-213):
locate the unique CREATE (`pop` on a one-element vector is that element),
check schema uniformity, then resolve the view. -/
def build (b : DocumentBuilder) : Except DocumentBuilderError Document :=
  let collect_create_operation := b.operations.filter (fun op => op.is_create)
  match collect_create_operation with
  | [] => Except.error DocumentBuilderError.noCreateOperation
  | [create_operation] =>
    let schema := create_operation.schema
    let author := create_operation.public_key
    if b.operations.any (fun operation => operation.schema != schema) then
      Except.error DocumentBuilderError.operationSchemaNotMatching
    else
      let id := create_operation.operation_id
      let meta : DocumentMeta := { operations := b.operations }
      match Document.resolve_view b.operations meta with
      | Except.ok (view, meta') =>
        Except.ok { id := id, author := author, schema := schema, view := view, meta := meta' }
      | Except.error e => Except.error e
  | _ :: _ :: _ => Except.error DocumentBuilderError.moreThanOneCreateOperation

end DocumentBuilder

/-! ## CBOR codec (`Operation::to_cbor` / `impl From<&OperationEncoded>`)

The serde attributes in `src/operation/operation.rs` fix the encoded shape:
camelCase struct keys, action as `"create"`/`"update"`/`"delete"`, version
as the untagged integer 1, `skip_serializing_if` omitting absent optionals,
and `OperationValue` adjacently tagged as `{ type, value }`.  The byte
serialisation itself is the external `serde_cbor` crate; it is modelled
from the spec (§4.2, §6) as standard CBOR with minimal-length headers. -/

/-- A CBOR value: the fragment used by operation encoding.  `nint n`
denotes the integer `-1-n`; `float64` carries the IEEE-754 bit pattern. -/
inductive Cbor where
  | uint (n : Nat)
  | nint (n : Nat)
  | text (s : String)
  | array (items : List Cbor)
  | map (pairs : List (Cbor × Cbor))
  | bool (b : Bool)
  | float64 (bits : Nat)

/-- Big-endian byte expansion of a natural number to a fixed width. -/
def beBytes (len n : Nat) : List Nat :=
  (List.range len).map (fun i => n / 256 ^ (len - 1 - i) % 256)

/-- Modelled from the spec: the CBOR initial bytes for a major type and an
unsigned argument, with minimal-length encoding. -/
def cborHeader (major n : Nat) : List Nat :=
  if n < 24 then [major * 32 + n]
  else if n < 256 then [major * 32 + 24, n]
  else if n < 65536 then [major * 32 + 25] ++ beBytes 2 n
  else if n < 4294967296 then [major * 32 + 26] ++ beBytes 4 n
  else [major * 32 + 27] ++ beBytes 8 n

mutual

/-- Modelled from the spec: standard CBOR byte serialisation of a value
(`serde_cbor::to_vec`); deterministic by construction. -/
def cborBytes : Cbor → List Nat
  | Cbor.uint n => cborHeader 0 n
  | Cbor.nint n => cborHeader 1 n
  | Cbor.text s => cborHeader 3 s.toUTF8.size ++ s.toUTF8.toList.map (fun b => b.toNat)
  | Cbor.array items => cborHeader 4 items.length ++ cborBytesList items
  | Cbor.map pairs => cborHeader 5 pairs.length ++ cborBytesPairs pairs
  | Cbor.bool b => if b then [245] else [244]
  | Cbor.float64 bits => [251] ++ beBytes 8 bits

/-- Byte serialisation of a list of CBOR items in order. -/
def cborBytesList : List Cbor → List Nat
  | [] => []
  | c :: rest => cborBytes c ++ cborBytesList rest

/-- Byte serialisation of CBOR map entries in order. -/
def cborBytesPairs : List (Cbor × Cbor) → List Nat
  | [] => []
  | (a, b) :: rest => cborBytes a ++ cborBytes b ++ cborBytesPairs rest

end

/-- The serde string of an `OperationAction`
(`impl Serialize for OperationAction`). -/
def actionString : OperationAction → String
  | OperationAction.create => "create"
  | OperationAction.update => "update"
  | OperationAction.delete => "delete"

/-- Embeds `impl Deserialize for OperationAction`. -/
def decodeAction (s : String) : Option OperationAction :=
  if s = "create" then some OperationAction.create
  else if s = "update" then some OperationAction.update
  else if s = "delete" then some OperationAction.delete
  else none

/-- Encoding of an `OperationValue` under
`#[serde(tag = "type", content = "value")]` with the renamed variant tags. -/
def encodeValue : OperationValue → Cbor
  | OperationValue.boolean b =>
    Cbor.map [(Cbor.text "type", Cbor.text "bool"), (Cbor.text "value", Cbor.bool b)]
  | OperationValue.integer i =>
    Cbor.map [(Cbor.text "type", Cbor.text "int"),
      (Cbor.text "value", if 0 ≤ i then Cbor.uint i.toNat else Cbor.nint (-(i + 1)).toNat)]
  | OperationValue.float bits =>
    Cbor.map [(Cbor.text "type", Cbor.text "float"), (Cbor.text "value", Cbor.float64 bits)]
  | OperationValue.text s =>
    Cbor.map [(Cbor.text "type", Cbor.text "str"), (Cbor.text "value", Cbor.text s)]
  | OperationValue.relation h =>
    Cbor.map [(Cbor.text "type", Cbor.text "relation"), (Cbor.text "value", Cbor.text h)]

/-- Encoding of `OperationFields`: a CBOR map over the (sorted) entries. -/
def encodeFields (f : OperationFields) : Cbor :=
  Cbor.map (f.entries.map (fun p => (Cbor.text p.1, encodeValue p.2)))

/-- Embeds `Operation::to_cbor` at the CBOR value level: the serde-derived
`Serialize` for `Operation` — struct fields in declaration order with
camelCase keys, absent optionals omitted. -/
def encodeOperation (op : Operation) : Cbor :=
  Cbor.map
    ([(Cbor.text "action", Cbor.text (actionString op.action)),
      (Cbor.text "schema", Cbor.text op.schema),
      (Cbor.text "version", Cbor.uint 1)]
      ++ (match op.previous_operations with
          | some l => [(Cbor.text "previousOperations", Cbor.array (l.map Cbor.text))]
          | none => [])
      ++ (match op.id with
          | some h => [(Cbor.text "id", Cbor.text h)]
          | none => [])
      ++ (match op.fields with
          | some f => [(Cbor.text "fields", encodeFields f)]
          | none => []))

/-- Embeds `Operation::to_cbor` (`src/operation/operation.rs` lines 361-364):
serialise to CBOR bytes. -/
def Operation.to_cbor (op : Operation) : List Nat :=
  cborBytes (encodeOperation op)

/-- Text-keyed lookup in a CBOR map's entry list. -/
def cborLookup (pairs : List (Cbor × Cbor)) (key : String) : Option Cbor :=
  match pairs with
  | [] => none
  | (k, v) :: rest =>
    match k with
    | Cbor.text s => if s = key then some v else cborLookup rest key
    | _ => cborLookup rest key

/-- Decoding of an `OperationValue` (serde-derived `Deserialize` under the
adjacent `{ type, value }` tagging). -/
def decodeValue (c : Cbor) : Option OperationValue :=
  match c with
  | Cbor.map pairs =>
    match cborLookup pairs "type", cborLookup pairs "value" with
    | some (Cbor.text "bool"), some (Cbor.bool b) => some (OperationValue.boolean b)
    | some (Cbor.text "int"), some (Cbor.uint n) => some (OperationValue.integer n)
    | some (Cbor.text "int"), some (Cbor.nint n) => some (OperationValue.integer (-1 - n))
    | some (Cbor.text "float"), some (Cbor.float64 bits) => some (OperationValue.float bits)
    | some (Cbor.text "str"), some (Cbor.text s) => some (OperationValue.text s)
    | some (Cbor.text "relation"), some (Cbor.text h) => some (OperationValue.relation h)
    | _, _ => none
  | _ => none

/-- Text contents of a CBOR value, when it is a text string. -/
def cborText : Cbor → Option String
  | Cbor.text s => some s
  | _ => none

/-- Decoding of one `OperationFields` map entry. -/
def decodeFieldEntry (p : Cbor × Cbor) : Option (String × OperationValue) :=
  match p.1 with
  | Cbor.text k => (decodeValue p.2).map (fun v => (k, v))
  | _ => none

/-- Sequential decoding of `OperationFields` map entries. -/
def decodeFieldList : List (Cbor × Cbor) → Option (List (String × OperationValue))
  | [] => some []
  | p :: rest =>
    match decodeFieldEntry p with
    | some e => (decodeFieldList rest).map (fun l => e :: l)
    | none => none

/-- Sequential decoding of a list of CBOR text items. -/
def decodeTextList : List Cbor → Option (List Hash)
  | [] => some []
  | c :: rest =>
    match cborText c with
    | some h => (decodeTextList rest).map (fun l => h :: l)
    | none => none

/-- Decoding of `OperationFields` from a CBOR map (entries in encoded
order, which the canonical encoder emits sorted). -/
def decodeFields (c : Cbor) : Option OperationFields :=
  match c with
  | Cbor.map pairs =>
    (decodeFieldList pairs).map (fun l => (⟨l⟩ : OperationFields))
  | _ => none

/-- Embeds `impl From<&OperationEncoded> for Operation`
(`src/operation/operation.rs` lines 448-453) at the CBOR value level: the
serde-derived `Deserialize` for `Operation` — key-based field extraction,
absent optionals becoming `None`. -/
def decodeOperation (c : Cbor) : Option Operation :=
  match c with
  | Cbor.map pairs =>
    match cborLookup pairs "action", cborLookup pairs "schema",
        cborLookup pairs "version" with
    | some (Cbor.text astr), some (Cbor.text schema), some (Cbor.uint 1) =>
      match decodeAction astr with
      | none => none
      | some action =>
        match
          (match cborLookup pairs "previousOperations" with
           | none => some none
           | some (Cbor.array items) => (decodeTextList items).map some
           | some _ => none),
          (match cborLookup pairs "id" with
           | none => some none
           | some (Cbor.text h) => some (some h)
           | some _ => none),
          (match cborLookup pairs "fields" with
           | none => some none
           | some fc => (decodeFields fc).map some) with
        | some prev, some idv, some fl =>
          some ⟨action, schema, OperationVersion.vDefault, prev, idv, fl⟩
        | _, _, _ => none
    | _, _, _ => none
  | _ => none

/-! ## CDDL schema generator (`src/cddl/generator.rs`) -/

/-- Embeds `Type` from `src/cddl/generator.rs`: the CDDL types. -/
inductive CddlType where
  | bool
  | int
  | float
  | tstr
  | relation
deriving DecidableEq

/-- Embeds `impl ToString for Type` (`src/cddl/generator.rs` lines 16-27). -/
def CddlType.to_string : CddlType → String
  | CddlType.bool => "bool"
  | CddlType.int => "int"
  | CddlType.float => "float"
  | CddlType.tstr => "tstr"
  | CddlType.relation => "tstr .regexp \"[0-9a-f]\x7b68\x7d\""

/-- Embeds `Field` from `src/cddl/generator.rs`: `String`, `Type` or `Struct(Group)`;
the nested `Group` (a name and a `BTreeMap<String, Field>`) is inlined into
the `grp` constructor. -/
inductive CddlField where
  | str (s : String)
  | typ (t : CddlType)
  | grp (name : String) (fields : List (String × CddlField))

mutual

/-- Embeds `impl ToString for Field` and `impl ToString for Group`
(`src/cddl/generator.rs` lines 38-46 and 74-88): a group renders as
`( k: v, ... )` with the separator before every element but the first. -/
def CddlField.to_string : CddlField → String
  | CddlField.str s => s
  | CddlField.typ t => t.to_string
  | CddlField.grp _ fields => "( " ++ cddlGroupEntries fields true ++ " )"

/-- The enumerate-and-comma loop of `Group::to_string`: emit `, ` before
every element except the first (`count != 0`). -/
def cddlGroupEntries : List (String × CddlField) → Bool → String
  | [], _ => ""
  | (k, f) :: rest, isFirst =>
    (if isFirst then "" else ", ") ++ k ++ ": " ++ f.to_string ++
      cddlGroupEntries rest false

end

/-- Embeds `CddlGenerator` from `src/cddl/generator.rs`: a name and a
`BTreeMap<String, Field>`. -/
structure CddlGenerator where
  name : String
  fields : List (String × CddlField)

/-- Embeds `CddlGenerator::new`. -/
def CddlGenerator.new (name : String) : CddlGenerator := ⟨name, []⟩

/-- Embeds `CddlGenerator::add_operation_field` (`src/cddl/generator.rs` lines
107-127): build the `{ type: "<tag>", value: <type> }` group and insert it
under the field key. -/
def CddlGenerator.add_operation_field (g : CddlGenerator) (key : String)
    (field_type : CddlType) : CddlGenerator :=
  let type_string : String :=
    match field_type with
    | CddlType.tstr => "\"str\""
    | CddlType.int => "\"int\""
    | CddlType.float => "\"float\""
    | CddlType.bool => "\"bool\""
    | CddlType.relation => "\"relation\""
  let operation_fields : List (String × CddlField) :=
    insertSorted "value" (CddlField.typ field_type)
      (insertSorted "type" (CddlField.str type_string) [])
  { g with fields := insertSorted key (CddlField.grp key operation_fields) g.fields }

/-- The enumerate-and-comma loop of `CddlGenerator::to_string`: each field
renders as `k: { v }`, with `, ` before every element except the first. -/
def cddlGenEntries : List (String × CddlField) → Bool → String
  | [], _ => ""
  | (k, f) :: rest, isFirst =>
    (if isFirst then "" else ", ") ++ k ++ ": \x7b " ++ f.to_string ++ " \x7d" ++
      cddlGenEntries rest false

/-- Embeds `impl ToString for CddlGenerator` (`src/cddl/generator.rs` lines
130-143). -/
def CddlGenerator.to_string (g : CddlGenerator) : String :=
  g.name ++ " = \x7b " ++ cddlGenEntries g.fields true ++ " \x7d"

/-- The rendering of a single generator field entry, `k: { v }`. -/
def cddlEntryString (p : String × CddlField) : String :=
  p.1 ++ ": \x7b " ++ p.2.to_string ++ " \x7d"

/-! ## Sample operations used by witnesses and counterexamples -/

/-- A concrete CREATE operation with metadata (id `p1`). -/
def sampleCreate : OperationWithMeta :=
  ⟨⟨OperationAction.create, "s", OperationVersion.vDefault, none, none,
    some ⟨[("name", OperationValue.text "Polar Bear Cafe")]⟩⟩, "p1", "alice"⟩

/-- A concrete UPDATE operation following `p1` (id `p2`). -/
def sampleUpdate : OperationWithMeta :=
  ⟨⟨OperationAction.update, "s", OperationVersion.vDefault, some ["p1"], some "p1",
    some ⟨[("name", OperationValue.text "Panda Cafe")]⟩⟩, "p2", "alice"⟩

/-- A concrete concurrent UPDATE following `p1` (id `p3`). -/
def sampleUpdate2 : OperationWithMeta :=
  ⟨⟨OperationAction.update, "s", OperationVersion.vDefault, some ["p1"], some "p1",
    some ⟨[("owner", OperationValue.text "Panda")]⟩⟩, "p3", "bob"⟩

/-- A concrete DELETE operation merging `p2` and `p3` (id `p4`). -/
def sampleDelete : OperationWithMeta :=
  ⟨⟨OperationAction.delete, "s", OperationVersion.vDefault, some ["p2", "p3"], some "p1",
    none⟩, "p4", "alice"⟩

/-- The document that building `[sampleCreate, sampleUpdate]` yields. -/
def sampleDoc : Document :=
  ⟨"p1", "alice", "s", ⟨[("name", OperationValue.text "Panda Cafe")]⟩,
    ⟨false, true, [sampleCreate, sampleUpdate], ["p2"]⟩⟩

/-- The document that building the three sample operations yields. -/
def sampleDoc3 : Document :=
  ⟨"p1", "alice", "s",
    ⟨[("name", OperationValue.text "Panda Cafe"), ("owner", OperationValue.text "Panda")]⟩,
    ⟨false, true, [sampleCreate, sampleUpdate, sampleUpdate2], ["p2", "p3"]⟩⟩

/-- A concrete UPDATE whose `previous_operations` references a hash (`zz`)
that no operation in any sample input carries (id `p9`). -/
def sampleDangling : OperationWithMeta :=
  ⟨⟨OperationAction.update, "s", OperationVersion.vDefault, some ["zz"], some "p1",
    some ⟨[("name", OperationValue.text "Ghost Cafe")]⟩⟩, "p9", "eve"⟩


/-- Whether a build result is an `InvalidOperationLink` error. -/
def isInvalidLinkError (r : Except DocumentBuilderError Document) : Bool :=
  match r with
  | Except.error (DocumentBuilderError.invalidOperationLink _) => true
  | _ => false

/-- The value an operation's field set assigns to a field name, if any
(`None` also for a DELETE, which has no fields). -/
def opAssigns (op : OperationWithMeta) (f : String) : Option OperationValue :=
  match op.operation.fields with
  | some flds => getValue flds.entries f
  | none => none

/-- Stated from the claim (C5): the value assigned by the operation that is
latest in the given order among those whose fields mention `f`. -/
def lastWriteValue (f : String) (ops : List OperationWithMeta) : Option OperationValue :=
  (ops.filterMap (fun op => opAssigns op f)).getLast?

/-- Two edge lists that every `List.all` query treats identically — the only
way `Graph.sort` consumes edges. -/
def EdgesEquiv (e1 e2 : List (String × String)) : Prop :=
  ∀ p : (String × String) → Bool, e1.all p = e2.all p

/-- Legality of a field container: unique keys (always true of a real
`BTreeMap`-backed `OperationFields`). -/
def fieldsNodupOk (op : OperationWithMeta) : Bool :=
  match op.operation.fields with
  | some flds => decide (keysOf flds.entries).Nodup
  | none => true

/-- Legality of a DELETE: it carries no fields (spec §3 invariant 3). -/
def deleteNoFields (op : OperationWithMeta) : Bool :=
  !op.is_delete || op.operation.fields.isNone

/-- Building an `OperationFields` container by a sequence of `add` calls
(`None` when some `add` fails with `FieldDuplicate`). -/
def addAll (f : OperationFields) : List (String × OperationValue) → Option OperationFields
  | [] => some f
  | (k, v) :: rest =>
    match f.add k v with
    | (Except.ok _, f') => addAll f' rest
    | (Except.error _, _) => none

/-! ## Lemmas about the association-map primitives -/

section AssocMapLemmas

variable {β : Type}

theorem strLtb_iff (a b : String) : strLtb a b = true ↔ a < b := by
  simp [strLtb, String.lt_iff_toList_lt, String.toList]

theorem insertSorted_nil (k : String) (v : β) :
    insertSorted k v ([] : List (String × β)) = [(k, v)] :=
  rfl

theorem insertSorted_cons (k : String) (v : β) (k' : String) (v' : β)
    (rest : List (String × β)) :
    insertSorted k v ((k', v') :: rest) =
      if k < k' then (k, v) :: (k', v') :: rest
      else if k = k' then (k, v) :: rest
      else (k', v') :: insertSorted k v rest := by
  by_cases h : k < k'
  · rw [if_pos h]
    show (if strLtb k k' then _ else _) = _
    rw [if_pos ((strLtb_iff k k').mpr h)]
  · rw [if_neg h]
    show (if strLtb k k' then _ else _) = _
    rw [if_neg (fun hc => h ((strLtb_iff k k').mp hc))]

theorem hasKey_iff_mem_keysOf (m : List (String × β)) (q : String) :
    hasKey m q = true ↔ q ∈ keysOf m := by
  induction m with
  | nil => simp [hasKey, keysOf]
  | cons hd tl ih =>
    by_cases h : q = hd.1
    · simp [hasKey, keysOf, h]
    · simp only [hasKey, keysOf, List.map_cons, List.mem_cons]
      rw [if_neg h]
      simp only [keysOf] at ih
      simp [ih, h]

theorem mem_keysOf {m : List (String × β)} {x : String} :
    x ∈ keysOf m ↔ ∃ v, (x, v) ∈ m := by
  simp only [keysOf, List.mem_map]
  constructor
  · rintro ⟨⟨a, b⟩, hab, rfl⟩
    exact ⟨b, hab⟩
  · rintro ⟨v, hv⟩
    exact ⟨(x, v), hv, rfl⟩

theorem keysOf_insertSorted_subset (k : String) (v : β) (m : List (String × β)) :
    ∀ x ∈ keysOf (insertSorted k v m), x = k ∨ x ∈ keysOf m := by
  induction m with
  | nil => simp [insertSorted, keysOf]
  | cons hd tl ih =>
    intro x hx
    rw [show hd = (hd.1, hd.2) from rfl, insertSorted_cons] at hx
    by_cases h1 : k < hd.1
    · rw [if_pos h1] at hx
      simp only [keysOf, List.map_cons, List.mem_cons] at hx
      rcases hx with h | h | h
      · exact Or.inl h
      · exact Or.inr (by simp [keysOf, h])
      · exact Or.inr (by simp only [keysOf, List.map_cons, List.mem_cons]; exact Or.inr h)
    · rw [if_neg h1] at hx
      by_cases h2 : k = hd.1
      · rw [if_pos h2] at hx
        simp only [keysOf, List.map_cons, List.mem_cons] at hx
        rcases hx with h | h
        · exact Or.inl h
        · exact Or.inr (by simp only [keysOf, List.map_cons, List.mem_cons]; exact Or.inr h)
      · rw [if_neg h2] at hx
        simp only [keysOf, List.map_cons, List.mem_cons] at hx
        rcases hx with h | h
        · exact Or.inr (by simp [keysOf, h])
        · rcases ih x h with h' | h'
          · exact Or.inl h'
          · exact Or.inr (by simp only [keysOf, List.map_cons, List.mem_cons]; exact Or.inr h')

theorem insertSorted_sorted (k : String) (v : β) (m : List (String × β))
    (h : SortedKeys m) : SortedKeys (insertSorted k v m) := by
  induction m with
  | nil => simp [insertSorted, SortedKeys]
  | cons hd tl ih =>
    simp only [SortedKeys, List.sorted_cons] at h
    rw [show hd = (hd.1, hd.2) from rfl, insertSorted_cons]
    by_cases h1 : k < hd.1
    · rw [if_pos h1]
      refine List.sorted_cons.mpr ⟨?_, List.sorted_cons.mpr ⟨h.1, h.2⟩⟩
      intro b hb
      rcases List.mem_cons.mp hb with hb | hb
      · simpa [hb] using h1
      · exact lt_trans h1 (h.1 b hb)
    · rw [if_neg h1]
      by_cases h2 : k = hd.1
      · rw [if_pos h2]
        exact List.sorted_cons.mpr ⟨fun b hb => by rw [h2]; exact h.1 b hb, h.2⟩
      · rw [if_neg h2]
        refine List.sorted_cons.mpr ⟨?_, ih h.2⟩
        have hk : hd.1 < k := by
          rcases lt_trichotomy k hd.1 with h' | h' | h'
          · exact absurd h' h1
          · exact absurd h' h2
          · exact h'
        intro b hb
        have hbk : b.1 = k ∨ b.1 ∈ keysOf tl :=
          keysOf_insertSorted_subset k v tl b.1 (by
            simp only [keysOf, List.mem_map]; exact ⟨b, hb, rfl⟩)
        rcases hbk with hbk | hbk
        · rw [hbk]; exact hk
        · rcases mem_keysOf.mp hbk with ⟨w, hw⟩
          exact h.1 (b.1, w) hw

theorem getValue_insertSorted (k q : String) (v : β) (m : List (String × β)) :
    getValue (insertSorted k v m) q = if q = k then some v else getValue m q := by
  induction m with
  | nil => simp [insertSorted, getValue]
  | cons hd tl ih =>
    rw [show hd = (hd.1, hd.2) from rfl, insertSorted_cons]
    by_cases h1 : k < hd.1
    · rw [if_pos h1]
      simp only [getValue]
    · rw [if_neg h1]
      by_cases h2 : k = hd.1
      · rw [if_pos h2]
        by_cases hq : q = k
        · simp only [getValue, if_pos hq, hq, h2]
          simp
        · simp only [getValue, if_neg hq]
          rw [if_neg (h2 ▸ hq)]
      · rw [if_neg h2]
        by_cases hq : q = hd.1
        · have hqk : q ≠ k := fun hqe => h2 (by rw [← hqe]; exact hq)
          simp only [getValue, if_pos hq, if_neg hqk]
        · simp only [getValue, if_neg hq, ih]

theorem insertSorted_perm (k : String) (v : β) (m : List (String × β))
    (h : k ∉ keysOf m) : (insertSorted k v m).Perm ((k, v) :: m) := by
  induction m with
  | nil => simp [insertSorted]
  | cons hd tl ih =>
    simp only [keysOf, List.map_cons, List.mem_cons, not_or] at h
    rw [show hd = (hd.1, hd.2) from rfl, insertSorted_cons]
    by_cases h1 : k < hd.1
    · rw [if_pos h1]
    · rw [if_neg h1]
      by_cases h2 : k = hd.1
      · exact absurd h2 h.1
      · rw [if_neg h2]
        exact List.Perm.trans
          ((ih (by simpa [keysOf] using h.2)).cons (hd.1, hd.2))
          (List.Perm.swap _ _ _)

/-- When the key is already bound to the same value, `insertSorted` is the
identity (the `BTreeMap` "replace with identical payload" case). -/
theorem insertSorted_self (k : String) (v : β) (m : List (String × β))
    (hs : SortedKeys m) (hv : (k, v) ∈ m) : insertSorted k v m = m := by
  induction m with
  | nil => cases hv
  | cons hd tl ih =>
    simp only [SortedKeys, List.sorted_cons] at hs
    rw [show hd = (hd.1, hd.2) from rfl, insertSorted_cons]
    rcases List.mem_cons.mp hv with hv | hv
    · have hk : k = hd.1 := by rw [← hv]
      have hval : v = hd.2 := by rw [← hv]
      rw [if_neg (by rw [hk]; exact lt_irrefl _), if_pos hk, hk, hval]
    · have hk : hd.1 < k := hs.1 (k, v) hv
      rw [if_neg (not_lt_of_gt hk), if_neg (fun h => absurd (h ▸ hk) (lt_irrefl _)),
        ih hs.2 hv]

end AssocMapLemmas

theorem str_foldl_append (a : String) (xs : List String) :
    xs.foldl (fun r s => r ++ s) a = a ++ xs.foldl (fun r s => r ++ s) "" := by
  induction xs generalizing a with
  | nil => simp
  | cons x xs ih =>
    simp only [List.foldl_cons]
    rw [ih (a ++ x), ih ("" ++ x)]
    simp [String.append_assoc]

theorem str_join_cons (x : String) (xs : List String) :
    String.join (x :: xs) = x ++ String.join xs := by
  simp only [String.join, List.foldl_cons]
  rw [str_foldl_append]
  simp

theorem cddlGenEntries_false (l : List (String × CddlField)) :
    cddlGenEntries l false = String.join (l.map (fun p => ", " ++ cddlEntryString p)) := by
  induction l with
  | nil => rfl
  | cons hd tl ih =>
    obtain ⟨k, f⟩ := hd
    simp only [cddlGenEntries, List.map_cons, str_join_cons, ih]
    simp [cddlEntryString, String.append_assoc]

theorem cddlGenEntries_true (l : List (String × CddlField)) :
    cddlGenEntries l true =
      match l with
      | [] => ""
      | x :: xs => cddlEntryString x ++ String.join (xs.map (fun p => ", " ++ cddlEntryString p)) := by
  cases l with
  | nil => rfl
  | cons hd tl =>
    obtain ⟨k, f⟩ := hd
    simp only [cddlGenEntries, cddlEntryString, cddlGenEntries_false]
    simp

theorem add_operation_field_sorted (g : CddlGenerator) (k : String) (t : CddlType)
    (h : SortedKeys g.fields) : SortedKeys (g.add_operation_field k t).fields := by
  obtain ⟨n, fs⟩ := g
  exact insertSorted_sorted _ _ _ h

/-- C9: `CddlGenerator::new("person")` with fields `name: Tstr` and
`age: Int` emits exactly the expected string; in general `to_string` emits
the (key-sorted) field map with the `, ` separator before every element
except the first, and any generator built by `add_operation_field` calls
has its fields in sorted key order. -/
theorem cddl_generator_emission :
    (((CddlGenerator.new "person").add_operation_field "name" CddlType.tstr).add_operation_field
        "age" CddlType.int).to_string =
      "person = \x7b age: \x7b ( type: \"int\", value: int ) \x7d, name: \x7b ( type: \"str\", value: tstr ) \x7d \x7d"
  ∧ (∀ g : CddlGenerator, g.to_string = g.name ++ " = \x7b " ++
      (match g.fields with
       | [] => ""
       | x :: xs =>
         cddlEntryString x ++ String.join (xs.map (fun p => ", " ++ cddlEntryString p))) ++
      " \x7d")
  ∧ (∀ (n : String) (l : List (String × CddlType)),
      SortedKeys
        (l.foldl (fun g p => g.add_operation_field p.1 p.2) (CddlGenerator.new n)).fields) := by
  refine ⟨by decide, ?_, ?_⟩
  · intro g
    rw [CddlGenerator.to_string, cddlGenEntries_true]
  · intro n l
    have h : ∀ (g : CddlGenerator), SortedKeys g.fields →
        SortedKeys (l.foldl (fun g p => g.add_operation_field p.1 p.2) g).fields := by
      induction l with
      | nil => intro g hg; exact hg
      | cons hd tl ih =>
        intro g hg
        exact ih _ (add_operation_field_sorted g hd.1 hd.2 hg)
    exact h (CddlGenerator.new n) (by simp [CddlGenerator.new, SortedKeys])

/-! ## C3: `Operation::validate` -/

/-- C3 (amended): `Operation::validate` succeeds exactly when a non-DELETE
operation carries non-empty fields, a non-CREATE operation carries
`previous_operations`, and a CREATE operation carries none; the three
rejections are `EmptyFields`, `EmptyPreviousOperations` and
`ExistingPreviousOperations` with exactly the stated triggers.  Contrary to
the claim, the `id` component is never examined, and a DELETE's `fields`
are never examined. -/
theorem validate_characterisation (op : Operation) :
    (op.validate = Except.ok () ↔
      ((op.action = OperationAction.delete ∨ ∃ f, op.fields = some f ∧ f.entries ≠ []) ∧
       (op.action ≠ OperationAction.create → op.previous_operations ≠ none) ∧
       (op.action = OperationAction.create → op.previous_operations = none)))
  ∧ (op.validate = Except.error OperationError.emptyFields ↔
      (op.action ≠ OperationAction.delete ∧
       (op.fields = none ∨ ∃ f, op.fields = some f ∧ f.entries = [])))
  ∧ (op.validate = Except.error OperationError.emptyPreviousOperations ↔
      ((op.action = OperationAction.delete ∨ ∃ f, op.fields = some f ∧ f.entries ≠ []) ∧
       op.action ≠ OperationAction.create ∧ op.previous_operations = none))
  ∧ (op.validate = Except.error OperationError.existingPreviousOperations ↔
      ((op.action = OperationAction.delete ∨ ∃ f, op.fields = some f ∧ f.entries ≠ []) ∧
       op.action = OperationAction.create ∧ op.previous_operations ≠ none))
  ∧ (∀ i, Operation.validate { op with id := i } = op.validate)
  ∧ (op.action = OperationAction.delete →
      ∀ f, Operation.validate { op with fields := f } = op.validate) := by
  obtain ⟨action, schema, version, previous_operations, id, fields⟩ := op
  cases action <;> cases previous_operations <;> cases fields <;>
    simp [Operation.validate, Operation.is_delete, Operation.is_create,
      Operation.has_fields, Operation.has_previous_operations,
      OperationFields.is_empty, List.isEmpty_iff] <;>
    (try (rename_i f; by_cases he : f.entries = [] <;> simp [he]))

/-- C3 counterexample: a DELETE operation carrying non-empty fields (and an
id and previous operations) violates the claimed invariant
"Delete ⇒ no fields", yet `validate` accepts it. -/
theorem validate_delete_with_fields_accepted :
    (Operation.mk OperationAction.delete "s" OperationVersion.vDefault (some ["p"])
        (some "d") (some ⟨[("a", OperationValue.boolean true)]⟩)).fields ≠ none ∧
    (Operation.mk OperationAction.delete "s" OperationVersion.vDefault (some ["p"])
        (some "d") (some ⟨[("a", OperationValue.boolean true)]⟩)).validate =
      Except.ok () := by
  constructor
  · decide
  · decide

/-- Witness for C3: a concrete UPDATE with non-empty fields, previous
operations and an id is accepted, via `validate_characterisation`. -/
theorem validate_characterisation_witness :
    (Operation.mk OperationAction.update "s" OperationVersion.vDefault (some ["p"])
        (some "d") (some ⟨[("a", OperationValue.boolean true)]⟩)).validate =
      Except.ok () := by
  refine (validate_characterisation _).1.mpr ⟨Or.inr ⟨_, rfl, by decide⟩, ?_, ?_⟩
  · intro _
    decide
  · intro h
    exact absurd h (by decide)

/-! ## C10: `OperationFields` mutators -/

/-- C10: the `OperationFields` mutators are atomic on error: `add` fails
with `FieldDuplicate` exactly when the name is present, `update` and
`remove` fail with `UnknownField` exactly when it is absent, these are the
only errors, and in every error case the container is unchanged. -/
theorem fields_mutators_atomic (m : OperationFields) (name : String)
    (value : OperationValue) :
    ((m.add name value).1 = Except.error OperationFieldsError.fieldDuplicate ↔
      hasKey m.entries name = true)
  ∧ (∀ e, (m.add name value).1 = Except.error e →
      e = OperationFieldsError.fieldDuplicate ∧ (m.add name value).2 = m)
  ∧ ((m.update name value).1 = Except.error OperationFieldsError.unknownField ↔
      hasKey m.entries name = false)
  ∧ (∀ e, (m.update name value).1 = Except.error e →
      e = OperationFieldsError.unknownField ∧ (m.update name value).2 = m)
  ∧ ((m.remove name).1 = Except.error OperationFieldsError.unknownField ↔
      hasKey m.entries name = false)
  ∧ (∀ e, (m.remove name).1 = Except.error e →
      e = OperationFieldsError.unknownField ∧ (m.remove name).2 = m) := by
  by_cases h : hasKey m.entries name <;>
    simp [OperationFields.add, OperationFields.update, OperationFields.remove, h]

/-! ## C2: CBOR codec round-trip -/

theorem decodeValue_encodeValue (v : OperationValue) :
    decodeValue (encodeValue v) = some v := by
  cases v with
  | integer i =>
    by_cases h : 0 ≤ i
    · simp [encodeValue, decodeValue, cborLookup, h, Int.toNat_of_nonneg h]
    · simp [encodeValue, decodeValue, cborLookup, h]
      omega
  | boolean b => simp [encodeValue, decodeValue, cborLookup]
  | float bits => simp [encodeValue, decodeValue, cborLookup]
  | text s => simp [encodeValue, decodeValue, cborLookup]
  | relation h => simp [encodeValue, decodeValue, cborLookup]

theorem decodeTextList_map (l : List Hash) :
    decodeTextList (l.map Cbor.text) = some l := by
  induction l with
  | nil => rfl
  | cons x xs ih => simp [decodeTextList, cborText, ih]

theorem decodeFields_encodeFields (f : OperationFields) :
    decodeFields (encodeFields f) = some f := by
  obtain ⟨entries⟩ := f
  simp only [encodeFields, decodeFields]
  have h : ∀ l : List (String × OperationValue),
      decodeFieldList (l.map (fun p => (Cbor.text p.1, encodeValue p.2))) = some l := by
    intro l
    induction l with
    | nil => rfl
    | cons x xs ih =>
      simp [decodeFieldList, decodeFieldEntry, decodeValue_encodeValue, ih]
  simp [h]

/-- C2: the operation codec is a total round-trip — decoding the CBOR
encoding of any operation (any action, any of the five value variants,
floats by their exact bit pattern) yields the operation back. -/
theorem operation_codec_round_trip (op : Operation) :
    decodeOperation (encodeOperation op) = some op := by
  obtain ⟨action, schema, version, previous_operations, id, fields⟩ := op
  cases version
  cases action <;> cases previous_operations <;> cases id <;> cases fields <;>
    simp [encodeOperation, decodeOperation, cborLookup, actionString, decodeAction,
      decodeTextList_map, decodeFields_encodeFields]

/-! ## Error shapes of the resolve phases -/

theorem addLinksForOp_error (op : OperationWithMeta) (l : List Hash) :
    ∀ (g : Graph) (e : DocumentBuilderError),
      Document.addLinksForOp g op l = Except.error e →
      e = DocumentBuilderError.invalidOperationLink op.operation_id := by
  induction l with
  | nil => intro g e h; simp [Document.addLinksForOp] at h
  | cons p rest ih =>
    intro g e h
    simp only [Document.addLinksForOp] at h
    split at h
    · exact ih _ _ h
    · injection h with h'
      exact h'.symm

theorem addAllLinks_error (l : List OperationWithMeta) :
    ∀ (g : Graph) (e : DocumentBuilderError),
      Document.addAllLinks g l = Except.error e →
      ∃ i, e = DocumentBuilderError.invalidOperationLink i := by
  induction l with
  | nil => intro g e h; simp [Document.addAllLinks] at h
  | cons op rest ih =>
    intro g e h
    simp only [Document.addAllLinks] at h
    split at h
    · rename_i prevs heq
      split at h
      · exact ih _ _ h
      · rename_i e' herr
        injection h with h'
        exact ⟨op.operation_id, by rw [← h']; exact addLinksForOp_error op prevs _ _ herr⟩
    · exact ih _ _ h

theorem sort_error (g : Graph) (e : DocumentBuilderError)
    (h : Graph.sort g = Except.error e) :
    e = DocumentBuilderError.unconnectedNode ∨ e = DocumentBuilderError.cycleDetected := by
  simp only [Graph.sort] at h
  split at h
  · injection h with h'
    exact Or.inl h'.symm
  · split at h
    · cases h
    · injection h with h'
      exact Or.inr h'.symm

theorem try_from_error (op : OperationWithMeta) (e : DocumentBuilderError)
    (h : DocumentView.try_from op = Except.error e) :
    e = DocumentBuilderError.viewNotCreateOperation := by
  simp only [DocumentView.try_from] at h
  split at h
  · split at h
    · cases h
    · injection h with h'
      exact h'.symm
  · injection h with h'
    exact h'.symm

theorem apply_update_error (v : DocumentView) (op : OperationWithMeta)
    (e : DocumentBuilderError) (h : v.apply_update op = Except.error e) :
    e = DocumentBuilderError.viewAppliedCreateOperation := by
  simp only [DocumentView.apply_update] at h
  split at h
  · cases h
  · split at h
    · cases h
    · injection h with h'
      exact h'.symm

theorem applyAll_error (l : List OperationWithMeta) :
    ∀ (v : DocumentView) (e : DocumentBuilderError),
      Document.applyAll v l = Except.error e →
      e = DocumentBuilderError.viewAppliedCreateOperation := by
  induction l with
  | nil => intro v e h; simp [Document.applyAll] at h
  | cons op rest ih =>
    intro v e h
    simp only [Document.applyAll] at h
    split at h
    · exact ih _ _ h
    · rename_i e' herr
      injection h with h'
      rw [← h']
      exact apply_update_error _ _ _ herr

theorem resolve_view_error_shape (operations : List OperationWithMeta)
    (meta : DocumentMeta) (e : DocumentBuilderError)
    (h : Document.resolve_view operations meta = Except.error e) :
    e ≠ DocumentBuilderError.noCreateOperation ∧
    e ≠ DocumentBuilderError.moreThanOneCreateOperation ∧
    e ≠ DocumentBuilderError.operationSchemaNotMatching := by
  simp only [Document.resolve_view] at h
  split at h
  · rename_i e' herr
    injection h with h'
    obtain ⟨i, rfl⟩ := addAllLinks_error _ _ _ herr
    subst h'
    refine ⟨by simp, by simp, by simp⟩
  · split at h
    · rename_i e' herr
      injection h with h'
      subst h'
      rcases sort_error _ _ herr with rfl | rfl <;> exact ⟨by simp, by simp, by simp⟩
    · split at h
      · injection h with h'
        subst h'
        refine ⟨by simp, by simp, by simp⟩
      · split at h
        · rename_i e' herr
          injection h with h'
          subst h'
          have := try_from_error _ _ herr
          subst this
          refine ⟨by simp, by simp, by simp⟩
        · split at h
          · rename_i e' herr
            injection h with h'
            subst h'
            have := applyAll_error _ _ _ herr
            subst this
            refine ⟨by simp, by simp, by simp⟩
          · cases h

/-! ## C6: CREATE uniqueness in `build` -/

/-- C6: `build` fails with `NoCreateOperation` when the input has no
CREATE, fails with `MoreThanOneCreateOperation` when it has two or more,
never returns those errors when it has exactly one, and on success the
unique CREATE's `operation_id` is the document id, its public key the
document author (and its schema the document schema). -/
theorem build_create_uniqueness (ops : List OperationWithMeta) :
    ((ops.filter (fun op => op.is_create)).length = 0 →
      (DocumentBuilder.new ops).build = Except.error DocumentBuilderError.noCreateOperation)
  ∧ (2 ≤ (ops.filter (fun op => op.is_create)).length →
      (DocumentBuilder.new ops).build =
        Except.error DocumentBuilderError.moreThanOneCreateOperation)
  ∧ (∀ d, (DocumentBuilder.new ops).build = Except.ok d →
      ∃ c, ops.filter (fun op => op.is_create) = [c] ∧
        d.id = c.operation_id ∧ d.author = c.public_key ∧ d.schema = c.schema)
  ∧ ((ops.filter (fun op => op.is_create)).length = 1 →
      (DocumentBuilder.new ops).build ≠ Except.error DocumentBuilderError.noCreateOperation ∧
      (DocumentBuilder.new ops).build ≠
        Except.error DocumentBuilderError.moreThanOneCreateOperation) := by
  refine ⟨?_, ?_, ?_, ?_⟩
  · intro h0
    have hf : ops.filter (fun op => op.is_create) = [] := List.length_eq_zero.mp h0
    simp [DocumentBuilder.build, DocumentBuilder.new, hf]
  · intro h2
    rcases hf : ops.filter (fun op => op.is_create) with _ | ⟨a, _ | ⟨b, rest⟩⟩
    · rw [hf] at h2; simp at h2
    · rw [hf] at h2; simp at h2
    · simp [DocumentBuilder.build, DocumentBuilder.new, hf]
  · intro d hd
    rcases hf : ops.filter (fun op => op.is_create) with _ | ⟨c, _ | ⟨b, rest⟩⟩
    · simp [DocumentBuilder.build, DocumentBuilder.new, hf] at hd
    · refine ⟨c, hf, ?_⟩
      simp only [DocumentBuilder.build, DocumentBuilder.new, hf] at hd
      split at hd
      · cases hd
      · split at hd
        · injection hd with hd'
          subst hd'
          exact ⟨rfl, rfl, rfl⟩
        · cases hd
    · simp [DocumentBuilder.build, DocumentBuilder.new, hf] at hd
  · intro h1
    rcases hf : ops.filter (fun op => op.is_create) with _ | ⟨c, _ | ⟨b, rest⟩⟩
    · rw [hf] at h1; simp at h1
    · constructor <;>
      · intro hd
        simp only [DocumentBuilder.build, DocumentBuilder.new, hf] at hd
        split at hd
        · cases hd
        · split at hd
          · cases hd
          · rename_i e herr
            injection hd with hd'
            subst hd'
            have := resolve_view_error_shape _ _ _ herr
            simp at this
    · rw [hf] at h1; simp at h1

/-- Witness for C6: with no CREATE the sample UPDATE alone is rejected with
`NoCreateOperation`, duplicating the sample CREATE gives
`MoreThanOneCreateOperation`, and with exactly one CREATE neither error
occurs, via `build_create_uniqueness`. -/
theorem build_create_uniqueness_witness :
    (DocumentBuilder.new [sampleUpdate]).build =
      Except.error DocumentBuilderError.noCreateOperation ∧
    (DocumentBuilder.new [sampleCreate, sampleCreate]).build =
      Except.error DocumentBuilderError.moreThanOneCreateOperation ∧
    (DocumentBuilder.new [sampleCreate, sampleUpdate]).build ≠
      Except.error DocumentBuilderError.noCreateOperation :=
  ⟨(build_create_uniqueness [sampleUpdate]).1 (by decide),
   (build_create_uniqueness [sampleCreate, sampleCreate]).2.1 (by decide),
   ((build_create_uniqueness [sampleCreate, sampleUpdate]).2.2.2 (by decide)).1⟩

/-! ## The node and link phases of `resolve_view` -/

theorem mem_keysOf_insertSorted {β : Type} (k : String) (v : β) (m : List (String × β))
    (x : String) : x ∈ keysOf (insertSorted k v m) ↔ x = k ∨ x ∈ keysOf m := by
  induction m with
  | nil => simp [insertSorted, keysOf]
  | cons hd tl ih =>
    rw [show hd = (hd.1, hd.2) from rfl, insertSorted_cons]
    by_cases h1 : k < hd.1
    · rw [if_pos h1]
      simp only [keysOf, List.map_cons, List.mem_cons]
    · rw [if_neg h1]
      by_cases h2 : k = hd.1
      · rw [if_pos h2]
        simp only [keysOf, List.map_cons, List.mem_cons, h2]
        tauto
      · rw [if_neg h2]
        simp only [keysOf, List.map_cons, List.mem_cons] at ih ⊢
        rw [ih]
        tauto

theorem keys_foldNodes (l : List OperationWithMeta) : ∀ (g : Graph) (x : String),
    x ∈ keysOf (foldNodes l g).nodes ↔
      x ∈ keysOf g.nodes ∨ x ∈ l.map (fun op => op.operation_id) := by
  induction l with
  | nil => intro g x; simp [foldNodes]
  | cons op rest ih =>
    intro g x
    have : foldNodes (op :: rest) g = foldNodes rest (g.add_node op.operation_id op) := by
      simp [foldNodes]
    rw [this, ih]
    simp only [Graph.add_node, mem_keysOf_insertSorted, List.map_cons, List.mem_cons]
    tauto

theorem edges_foldNodes (l : List OperationWithMeta) : ∀ g : Graph,
    (foldNodes l g).edges = g.edges := by
  induction l with
  | nil => intro g; simp [foldNodes]
  | cons op rest ih =>
    intro g
    have : foldNodes (op :: rest) g = foldNodes rest (g.add_node op.operation_id op) := by
      simp [foldNodes]
    rw [this, ih]
    simp [Graph.add_node]

theorem addLinksForOp_char (op : OperationWithMeta) (l : List Hash) : ∀ g : Graph,
    Document.addLinksForOp g op l =
      if l.all (fun p => hasKey g.nodes p && hasKey g.nodes op.operation_id) then
        Except.ok ⟨g.nodes, g.edges ++ l.map (fun p => (p, op.operation_id))⟩
      else
        Except.error (DocumentBuilderError.invalidOperationLink op.operation_id) := by
  induction l with
  | nil => intro g; simp [Document.addLinksForOp]
  | cons p rest ih =>
    intro g
    by_cases h : (hasKey g.nodes p && hasKey g.nodes op.operation_id) = true
    · have hstep : Document.addLinksForOp g op (p :: rest) =
          Document.addLinksForOp ⟨g.nodes, g.edges ++ [(p, op.operation_id)]⟩ op rest := by
        simp [Document.addLinksForOp, Graph.add_link, h]
      rw [hstep, ih]
      simp [List.all_cons, h, List.append_assoc]
    · have hstep : Document.addLinksForOp g op (p :: rest) =
          Except.error (DocumentBuilderError.invalidOperationLink op.operation_id) := by
        simp [Document.addLinksForOp, Graph.add_link, h]
      rw [hstep]
      rw [if_neg (by simp [List.all_cons, h])]

theorem addAllLinks_ok (l : List OperationWithMeta) : ∀ g : Graph,
    (∀ op ∈ l, opLinksOkN g.nodes op = true) →
    Document.addAllLinks g l = Except.ok ⟨g.nodes, g.edges ++ allOpEdges l⟩ := by
  induction l with
  | nil => intro g _; simp [Document.addAllLinks, allOpEdges]
  | cons op rest ih =>
    intro g h
    have hop := h op (by simp)
    have hrest : ∀ op' ∈ rest, opLinksOkN g.nodes op' = true :=
      fun op' h' => h op' (by simp [h'])
    cases hprev : op.previous_operations with
    | some ps =>
      have hcond : ps.all (fun p => hasKey g.nodes p && hasKey g.nodes op.operation_id) = true := by
        simpa [opLinksOkN, hprev] using hop
      have hstep : Document.addAllLinks g (op :: rest) =
          Document.addAllLinks ⟨g.nodes, g.edges ++ ps.map (fun p => (p, op.operation_id))⟩ rest := by
        simp [Document.addAllLinks, hprev, addLinksForOp_char, hcond]
      rw [hstep,
        ih ⟨g.nodes, g.edges ++ ps.map (fun p => (p, op.operation_id))⟩ hrest]
      simp [allOpEdges, opEdges, hprev, List.append_assoc]
    | none =>
      have hstep : Document.addAllLinks g (op :: rest) = Document.addAllLinks g rest := by
        simp [Document.addAllLinks, hprev]
      rw [hstep, ih g hrest]
      simp [allOpEdges, opEdges, hprev]

theorem addAllLinks_fail (l : List OperationWithMeta) : ∀ g : Graph,
    (∃ op ∈ l, opLinksOkN g.nodes op = false) →
    ∃ i, Document.addAllLinks g l =
        Except.error (DocumentBuilderError.invalidOperationLink i) ∧
      ∃ op ∈ l, op.operation_id = i ∧ opLinksOkN g.nodes op = false := by
  induction l with
  | nil => intro g h; simp at h
  | cons op rest ih =>
    intro g h
    by_cases hok : opLinksOkN g.nodes op = true
    · obtain ⟨w, hw, hwf⟩ := h
      rcases List.mem_cons.mp hw with rfl | hw'
      · rw [hok] at hwf; cases hwf
      · cases hprev : op.previous_operations with
        | some ps =>
          have hcond : ps.all (fun p => hasKey g.nodes p && hasKey g.nodes op.operation_id) = true := by
            simpa [opLinksOkN, hprev] using hok
          have hstep : Document.addAllLinks g (op :: rest) =
              Document.addAllLinks
                ⟨g.nodes, g.edges ++ ps.map (fun p => (p, op.operation_id))⟩ rest := by
            simp [Document.addAllLinks, hprev, addLinksForOp_char, hcond]
          obtain ⟨i, heq, op', hop', hid, hfl⟩ := ih
            ⟨g.nodes, g.edges ++ ps.map (fun p => (p, op.operation_id))⟩ ⟨w, hw', hwf⟩
          exact ⟨i, by rw [hstep]; exact heq, op', by simp [hop'], hid, hfl⟩
        | none =>
          have hstep : Document.addAllLinks g (op :: rest) = Document.addAllLinks g rest := by
            simp [Document.addAllLinks, hprev]
          obtain ⟨i, heq, op', hop', hid, hfl⟩ := ih g ⟨w, hw', hwf⟩
          exact ⟨i, by rw [hstep]; exact heq, op', by simp [hop'], hid, hfl⟩
    · have hfalse : opLinksOkN g.nodes op = false := by
        cases hv : opLinksOkN g.nodes op
        · rfl
        · exact absurd hv hok
      cases hprev : op.previous_operations with
      | some ps =>
        have hcond : ps.all (fun p => hasKey g.nodes p && hasKey g.nodes op.operation_id) = false := by
          simpa [opLinksOkN, hprev] using hfalse
        refine ⟨op.operation_id, ?_, op, by simp, rfl, hfalse⟩
        simp [Document.addAllLinks, hprev, addLinksForOp_char, hcond]
      | none =>
        exfalso
        simp [opLinksOkN, hprev] at hfalse

theorem build_eq_resolve (ops : List OperationWithMeta) (c : OperationWithMeta)
    (hc : ops.filter (fun op => op.is_create) = [c])
    (hschema : ∀ op ∈ ops, op.schema = c.schema) :
    (DocumentBuilder.new ops).build =
      match Document.resolve_view ops { operations := ops } with
      | Except.ok (view, meta') =>
        Except.ok ⟨c.operation_id, c.public_key, c.schema, view, meta'⟩
      | Except.error e => Except.error e := by
  simp only [DocumentBuilder.build, DocumentBuilder.new, hc]
  have hany : ops.any (fun operation => operation.schema != c.schema) = false := by
    rw [List.any_eq_false]
    intro op hop
    simp [hschema op hop]
  rw [if_neg (by simp [hany])]

/-! ## Permutation and congruence lemmas for the sort machinery -/

theorem perm_all {α : Type} {l1 l2 : List α} (h : l1.Perm l2) (p : α → Bool) :
    l1.all p = l2.all p := by
  induction h with
  | nil => rfl
  | cons a _ ih => simp [List.all_cons, ih]
  | swap a b l => simp [List.all_cons, Bool.and_left_comm]
  | trans _ _ ih1 ih2 => rw [ih1, ih2]

theorem perm_any {α : Type} {l1 l2 : List α} (h : l1.Perm l2) (p : α → Bool) :
    l1.any p = l2.any p := by
  induction h with
  | nil => rfl
  | cons a _ ih => simp [List.any_cons, ih]
  | swap a b l => simp [List.any_cons, Bool.or_left_comm]
  | trans _ _ ih1 ih2 => rw [ih1, ih2]

theorem edgesEquiv_of_perm {e1 e2 : List (String × String)} (h : e1.Perm e2) :
    EdgesEquiv e1 e2 :=
  fun p => perm_all h p

theorem all_append_subset {α : Type} (l extra : List α)
    (hsub : ∀ e ∈ extra, e ∈ l) (p : α → Bool) : (l ++ extra).all p = l.all p := by
  rcases hl : l.all p with _ | _
  · simp [List.all_append, hl]
  · have hextra : extra.all p = true :=
      List.all_eq_true.mpr fun e he => List.all_eq_true.mp hl e (hsub e he)
    simp [List.all_append, hl, hextra]

theorem edgesEquiv_append_subset (l extra : List (String × String))
    (hsub : ∀ e ∈ extra, e ∈ l) : EdgesEquiv (l ++ extra) l :=
  fun p => all_append_subset l extra hsub p

theorem readyKeys_congr (n : List (String × OperationWithMeta))
    (e1 e2 : List (String × String)) (h : EdgesEquiv e1 e2) (em : List String) :
    Graph.readyKeys n e1 em = Graph.readyKeys n e2 em := by
  unfold Graph.readyKeys
  apply List.filter_congr
  intro k _
  rw [h (fun e => e.2 != k || em.contains e.1)]

theorem kahnGo_congr (n : List (String × OperationWithMeta))
    (e1 e2 : List (String × String)) (h : EdgesEquiv e1 e2) :
    ∀ (fuel : Nat) (em : List String), Graph.kahnGo n e1 fuel em = Graph.kahnGo n e2 fuel em := by
  intro fuel
  induction fuel with
  | zero => intro em; rfl
  | succ f ih =>
    intro em
    simp only [Graph.kahnGo, readyKeys_congr n e1 e2 h em]
    cases Graph.readyKeys n e2 em with
    | nil => rfl
    | cons k tl => exact ih (em ++ [k])

theorem sort_congr (n : List (String × OperationWithMeta))
    (e1 e2 : List (String × String)) (h : EdgesEquiv e1 e2) :
    Graph.sort ⟨n, e1⟩ = Graph.sort ⟨n, e2⟩ := by
  have hroots : (keysOf n).filter (fun k => e1.all (fun e => e.2 != k)) =
      (keysOf n).filter (fun k => e2.all (fun e => e.2 != k)) :=
    List.filter_congr (fun k _ => h _)
  have htips : n.filter (fun nn => e1.all (fun e => e.1 != nn.1)) =
      n.filter (fun nn => e2.all (fun e => e.1 != nn.1)) :=
    List.filter_congr (fun nn _ => h _)
  simp only [Graph.sort, hroots, htips, kahnGo_congr n e1 e2 h]

theorem allOpEdges_append (l1 l2 : List OperationWithMeta) :
    allOpEdges (l1 ++ l2) = allOpEdges l1 ++ allOpEdges l2 := by
  induction l1 with
  | nil => simp [allOpEdges]
  | cons op rest ih => simp [allOpEdges, ih, List.append_assoc]

theorem allOpEdges_perm {l1 l2 : List OperationWithMeta} (h : l1.Perm l2) :
    (allOpEdges l1).Perm (allOpEdges l2) := by
  induction h with
  | nil => rfl
  | cons a _ ih => simpa [allOpEdges] using ih.append_left (opEdges a)
  | swap a b l =>
    simp only [allOpEdges]
    rw [← List.append_assoc, ← List.append_assoc]
    exact (List.perm_append_comm.append_right (allOpEdges l))
  | trans _ _ ih1 ih2 => exact ih1.trans ih2

theorem mem_allOpEdges_of_mem {op : OperationWithMeta} {l : List OperationWithMeta}
    (h : op ∈ l) : ∀ e ∈ opEdges op, e ∈ allOpEdges l := by
  induction l with
  | nil => cases h
  | cons hd tl ih =>
    intro e he
    rcases List.mem_cons.mp h with rfl | h'
    · simp only [allOpEdges, List.mem_append]
      exact Or.inl he
    · simp only [allOpEdges, List.mem_append]
      exact Or.inr (ih h' e he)

theorem foldNodes_spec (l : List OperationWithMeta) : ∀ g : Graph,
    (l.map (fun op => op.operation_id)).Nodup →
    (∀ k ∈ l.map (fun op => op.operation_id), hasKey g.nodes k = false) →
    SortedKeys g.nodes →
    (foldNodes l g).nodes.Perm (g.nodes ++ l.map (fun op => (op.operation_id, op))) ∧
      SortedKeys (foldNodes l g).nodes := by
  induction l with
  | nil =>
    intro g _ _ hs
    exact ⟨by simp [foldNodes], by simpa [foldNodes] using hs⟩
  | cons op rest ih =>
    intro g hnd hdis hs
    have hfold : foldNodes (op :: rest) g = foldNodes rest (g.add_node op.operation_id op) := by
      simp [foldNodes]
    have hk : hasKey g.nodes op.operation_id = false := hdis _ (by simp)
    have hknotin : op.operation_id ∉ keysOf g.nodes := by
      intro hm
      rw [← hasKey_iff_mem_keysOf] at hm
      simp [hk] at hm
    have hnd' : (rest.map (fun op => op.operation_id)).Nodup :=
      (List.nodup_cons.mp (by simpa using hnd)).2
    have hnotintl : op.operation_id ∉ rest.map (fun op => op.operation_id) :=
      (List.nodup_cons.mp (by simpa using hnd)).1
    have hdis' : ∀ k ∈ rest.map (fun op => op.operation_id),
        hasKey (g.add_node op.operation_id op).nodes k = false := by
      intro k hkm
      rcases hck : hasKey (g.add_node op.operation_id op).nodes k with _ | _
      · rfl
      · exfalso
        have hmem := (hasKey_iff_mem_keysOf _ _).mp hck
        simp only [Graph.add_node] at hmem
        rcases (mem_keysOf_insertSorted _ _ _ _).mp hmem with rfl | hmem'
        · exact hnotintl hkm
        · have := hdis k (by simp [hkm])
          rw [← hasKey_iff_mem_keysOf] at hmem'
          simp [this] at hmem'
    obtain ⟨hperm, hsorted⟩ := ih (g.add_node op.operation_id op) hnd' hdis'
      (by simpa [Graph.add_node] using insertSorted_sorted op.operation_id op g.nodes hs)
    constructor
    · rw [hfold]
      refine hperm.trans ?_
      have h1 : (g.add_node op.operation_id op).nodes.Perm
          ((op.operation_id, op) :: g.nodes) := by
        simpa [Graph.add_node] using insertSorted_perm op.operation_id op g.nodes hknotin
      simp only [List.map_cons]
      exact (h1.append_right _).trans List.perm_middle.symm
    · rw [hfold]
      exact hsorted

theorem addAllLinks_append (l1 l2 : List OperationWithMeta) : ∀ g : Graph,
    Document.addAllLinks g (l1 ++ l2) =
      match Document.addAllLinks g l1 with
      | Except.ok g' => Document.addAllLinks g' l2
      | Except.error e => Except.error e := by
  induction l1 with
  | nil => intro g; simp [Document.addAllLinks]
  | cons op rest ih =>
    intro g
    cases hprev : op.previous_operations with
    | some ps =>
      cases hlk : Document.addLinksForOp g op ps with
      | ok g' =>
        have h1 : Document.addAllLinks g ((op :: rest) ++ l2) =
            Document.addAllLinks g' (rest ++ l2) := by
          simp [Document.addAllLinks, hprev, hlk]
        have h2 : Document.addAllLinks g (op :: rest) = Document.addAllLinks g' rest := by
          simp [Document.addAllLinks, hprev, hlk]
        rw [h1, h2, ih g']
      | error e =>
        have h1 : Document.addAllLinks g ((op :: rest) ++ l2) = Except.error e := by
          simp [Document.addAllLinks, hprev, hlk]
        have h2 : Document.addAllLinks g (op :: rest) = Except.error e := by
          simp [Document.addAllLinks, hprev, hlk]
        rw [h1, h2]
    | none =>
      have h1 : Document.addAllLinks g ((op :: rest) ++ l2) =
          Document.addAllLinks g (rest ++ l2) := by
        simp [Document.addAllLinks, hprev]
      have h2 : Document.addAllLinks g (op :: rest) = Document.addAllLinks g rest := by
        simp [Document.addAllLinks, hprev]
      rw [h1, h2, ih g]

theorem addAllLinks_ok_all (l : List OperationWithMeta) (g g' : Graph)
    (h : Document.addAllLinks g l = Except.ok g') :
    ∀ op ∈ l, opLinksOkN g.nodes op = true := by
  by_contra hc
  push_neg at hc
  obtain ⟨op, hop, hf⟩ := hc
  have hfalse : opLinksOkN g.nodes op = false := by
    rcases hv : opLinksOkN g.nodes op with _ | _
    · rfl
    · exact absurd hv hf
  obtain ⟨i, heq, _⟩ := addAllLinks_fail l g ⟨op, hop, hfalse⟩
  rw [heq] at h
  cases h

/-! ## Inversion of successful builds -/

theorem addAllLinks_nodes (l : List OperationWithMeta) (g g' : Graph)
    (h : Document.addAllLinks g l = Except.ok g') : g'.nodes = g.nodes := by
  have hall := addAllLinks_ok_all l g g' h
  rw [addAllLinks_ok l g hall] at h
  injection h with h'
  rw [← h']

theorem resolve_view_ok_inversion (ops : List OperationWithMeta) (meta : DocumentMeta)
    (vm : DocumentView × DocumentMeta)
    (h : Document.resolve_view ops meta = Except.ok vm) :
    ∃ (g1 : Graph) (sgd : SortedGraphData) (first : OperationWithMeta)
        (rest : List OperationWithMeta) (v0 : DocumentView),
      Document.addAllLinks (foldNodes ops Graph.new) ops = Except.ok g1 ∧
      Graph.sort g1 = Except.ok sgd ∧
      sgd.sorted = first :: rest ∧
      DocumentView.try_from first = Except.ok v0 ∧
      Document.applyAll v0 rest = Except.ok vm.1 ∧
      vm.2 = { deleted := if ops.any (fun op => op.is_delete) then true else meta.deleted,
               edited := if 1 < ops.length then true else meta.edited,
               operations := sgd.sorted,
               current_graph_tips :=
                 sgd.current_graph_tips.map (fun operation => operation.operation_id) } := by
  simp only [Document.resolve_view] at h
  split at h
  · cases h
  · rename_i g1 hlinks
    split at h
    · cases h
    · rename_i sgd hsort
      split at h
      · cases h
      · rename_i first rest hsorted
        split at h
        · cases h
        · rename_i v0 htf
          split at h
          · cases h
          · rename_i view happ
            injection h with h'
            subst h'
            exact ⟨g1, sgd, first, rest, v0, hlinks, hsort, hsorted, htf, happ, rfl⟩

theorem build_ok_inversion (ops : List OperationWithMeta) (d : Document)
    (h : (DocumentBuilder.new ops).build = Except.ok d) :
    ∃ c, ops.filter (fun op => op.is_create) = [c] ∧
      (∀ op ∈ ops, op.schema = c.schema) ∧
      Document.resolve_view ops { operations := ops } = Except.ok (d.view, d.meta) ∧
      d.id = c.operation_id ∧ d.author = c.public_key ∧ d.schema = c.schema := by
  rcases hf : ops.filter (fun op => op.is_create) with _ | ⟨c, _ | ⟨b, rest⟩⟩
  · simp [DocumentBuilder.build, DocumentBuilder.new, hf] at h
  · simp only [DocumentBuilder.build, DocumentBuilder.new, hf] at h
    split at h
    · cases h
    · rename_i hany
      have hschema : ∀ op ∈ ops, op.schema = c.schema := by
        intro op hop
        by_contra hne
        exact hany (List.any_eq_true.mpr ⟨op, hop, by simp [bne_iff_ne, hne]⟩)
      split at h
      · rename_i view meta' hres
        injection h with h'
        subst h'
        exact ⟨c, hf, hschema, hres, rfl, rfl, rfl⟩
      · cases h
  · simp [DocumentBuilder.build, DocumentBuilder.new, hf] at h

theorem sort_ok_inversion (g : Graph) (sgd : SortedGraphData)
    (h : Graph.sort g = Except.ok sgd) :
    sgd.sorted = (Graph.kahnGo g.nodes g.edges g.nodes.length []).filterMap
        (fun k => getValue g.nodes k) ∧
    sgd.current_graph_tips =
      (g.nodes.filter (fun n => g.edges.all (fun e => e.1 != n.1))).map Prod.snd := by
  simp only [Graph.sort] at h
  split at h
  · cases h
  · split at h
    · injection h with h'
      subst h'
      exact ⟨rfl, rfl⟩
    · cases h

theorem try_from_ok_inversion (op : OperationWithMeta) (v0 : DocumentView)
    (h : DocumentView.try_from op = Except.ok v0) :
    op.is_create = true ∧ ∃ flds, op.operation.fields = some flds ∧
      v0.entries = flds.entries := by
  simp only [DocumentView.try_from] at h
  split at h
  · rename_i hcr
    split at h
    · rename_i flds hflds
      injection h with h'
      subst h'
      exact ⟨by simpa [OperationWithMeta.is_create] using hcr, flds, hflds, rfl⟩
    · cases h
  · cases h

/-! ## C5: field-level last-write-wins -/

theorem getValue_none_iff {β : Type} (m : List (String × β)) (f : String) :
    getValue m f = none ↔ f ∉ keysOf m := by
  induction m with
  | nil => simp [getValue, keysOf]
  | cons hd tl ih =>
    by_cases h : f = hd.1
    · rw [show hd = (hd.1, hd.2) from rfl]
      simp [getValue, keysOf, h]
    · rw [show hd = (hd.1, hd.2) from rfl]
      simp only [getValue, if_neg h, keysOf, List.map_cons, List.mem_cons]
      simp only [keysOf] at ih
      simp [ih, h]

theorem getValue_some_mem {β : Type} (m : List (String × β)) (q : String) (v : β)
    (h : getValue m q = some v) : (q, v) ∈ m := by
  induction m with
  | nil => cases h
  | cons hd tl ih =>
    rw [show hd = (hd.1, hd.2) from rfl] at h ⊢
    simp only [getValue] at h
    split at h
    · rename_i hq
      injection h with h'
      subst h'
      subst hq
      simp
    · simp [ih h]

theorem mem_insertSorted_subset {β : Type} (x : String × β) (k : String) (v : β)
    (m : List (String × β)) (h : x ∈ insertSorted k v m) : x = (k, v) ∨ x ∈ m := by
  induction m with
  | nil => simpa [insertSorted] using h
  | cons hd tl ih =>
    rw [show hd = (hd.1, hd.2) from rfl, insertSorted_cons] at h
    by_cases h1 : k < hd.1
    · rw [if_pos h1] at h
      rcases List.mem_cons.mp h with h' | h'
      · exact Or.inl h'
      · exact Or.inr (by rw [show hd = (hd.1, hd.2) from rfl]; exact h')
    · rw [if_neg h1] at h
      by_cases h2 : k = hd.1
      · rw [if_pos h2] at h
        rcases List.mem_cons.mp h with h' | h'
        · exact Or.inl h'
        · exact Or.inr (List.mem_cons.mpr (Or.inr h'))
      · rw [if_neg h2] at h
        rcases List.mem_cons.mp h with h' | h'
        · exact Or.inr (by rw [show hd = (hd.1, hd.2) from rfl, h']; simp)
        · rcases ih h' with h'' | h''
          · exact Or.inl h''
          · exact Or.inr (List.mem_cons.mpr (Or.inr h''))

theorem mem_foldNodes_subset (l : List OperationWithMeta) :
    ∀ (g : Graph) (x : String × OperationWithMeta),
      x ∈ (foldNodes l g).nodes → x ∈ g.nodes ∨ x.2 ∈ l := by
  induction l with
  | nil => intro g x hx; exact Or.inl (by simpa [foldNodes] using hx)
  | cons op rest ih =>
    intro g x hx
    have hfold : foldNodes (op :: rest) g = foldNodes rest (g.add_node op.operation_id op) := by
      simp [foldNodes]
    rw [hfold] at hx
    rcases ih (g.add_node op.operation_id op) x hx with h' | h'
    · simp only [Graph.add_node] at h'
      rcases mem_insertSorted_subset x op.operation_id op g.nodes h' with h'' | h''
      · right
        rw [h'']
        simp
      · exact Or.inl h''
    · right
      simp [h']

theorem overlay_getValue_not_mem (l : List (String × OperationValue)) :
    ∀ (base : List (String × OperationValue)) (f : String), f ∉ keysOf l →
      getValue (l.foldl (fun acc p => insertSorted p.1 p.2 acc) base) f =
        getValue base f := by
  induction l with
  | nil => intro base f _; rfl
  | cons hd tl ih =>
    intro base f hf
    simp only [keysOf, List.map_cons, List.mem_cons, not_or] at hf
    have hstep : (hd :: tl).foldl (fun acc p => insertSorted p.1 p.2 acc) base =
        tl.foldl (fun acc p => insertSorted p.1 p.2 acc) (insertSorted hd.1 hd.2 base) := by
      simp
    rw [hstep, ih _ f (by simpa [keysOf] using hf.2), getValue_insertSorted,
      if_neg hf.1]

theorem overlay_getValue (l : List (String × OperationValue)) :
    ∀ (base : List (String × OperationValue)) (f : String), (keysOf l).Nodup →
      getValue (l.foldl (fun acc p => insertSorted p.1 p.2 acc) base) f =
        match getValue l f with
        | some v => some v
        | none => getValue base f := by
  induction l with
  | nil => intro base f _; rfl
  | cons hd tl ih =>
    intro base f hnd
    have hnd' : (keysOf tl).Nodup := (List.nodup_cons.mp (by simpa [keysOf] using hnd)).2
    have hhd : hd.1 ∉ keysOf tl := (List.nodup_cons.mp (by simpa [keysOf] using hnd)).1
    have hstep : (hd :: tl).foldl (fun acc p => insertSorted p.1 p.2 acc) base =
        tl.foldl (fun acc p => insertSorted p.1 p.2 acc) (insertSorted hd.1 hd.2 base) := by
      simp
    rw [hstep, ih _ f hnd']
    by_cases hf : f = hd.1
    · have hnone : getValue tl f = none := (getValue_none_iff tl f).mpr (hf ▸ hhd)
      rw [hnone, getValue_insertSorted, if_pos hf]
      rw [show hd = (hd.1, hd.2) from rfl]
      simp [getValue, hf]
    · rw [getValue_insertSorted, if_neg hf]
      rw [show hd = (hd.1, hd.2) from rfl]
      simp only [getValue, if_neg hf]

theorem getLast?_cons_match {α : Type} (a : α) (l : List α) :
    (a :: l).getLast? =
      match l.getLast? with
      | some w => some w
      | none => some a := by
  induction l generalizing a with
  | nil => rfl
  | cons b tl ih =>
    rw [List.getLast?_cons_cons]
    rw [ih b]
    rcases hx : tl.getLast? with _ | x <;> rfl

theorem apply_update_get (v v' : DocumentView) (op : OperationWithMeta)
    (hnd : ∀ flds, op.operation.fields = some flds → (keysOf flds.entries).Nodup)
    (hdel : op.is_delete = true → op.operation.fields = none)
    (h : v.apply_update op = Except.ok v') (f : String) :
    v'.get f =
      match opAssigns op f with
      | some u => some u
      | none => v.get f := by
  simp only [DocumentView.apply_update] at h
  split at h
  · rename_i hupd
    injection h with h'
    subst h'
    cases hflds : op.operation.fields with
    | some flds =>
      simp only [DocumentView.get, opAssigns, hflds, Option.getD]
      exact overlay_getValue flds.entries v.entries f (hnd flds hflds)
    | none =>
      simp only [DocumentView.get, opAssigns, hflds, Option.getD]
      have : (OperationFields.new).entries = [] := rfl
      simp [OperationFields.new]
  · split at h
    · rename_i hdel'
      injection h with h'
      subst h'
      have hflds := hdel (by simpa [OperationWithMeta.is_delete] using hdel')
      simp [opAssigns, hflds]
    · cases h

theorem applyAll_get (rest : List OperationWithMeta) :
    ∀ (v view : DocumentView),
      Document.applyAll v rest = Except.ok view →
      (∀ op ∈ rest, ∀ flds, op.operation.fields = some flds →
        (keysOf flds.entries).Nodup) →
      (∀ op ∈ rest, op.is_delete = true → op.operation.fields = none) →
      ∀ f, view.get f =
        match (rest.filterMap (fun op => opAssigns op f)).getLast? with
        | some w => some w
        | none => v.get f := by
  induction rest with
  | nil =>
    intro v view h _ _ f
    simp only [Document.applyAll] at h
    injection h with h'
    subst h'
    rfl
  | cons op tl ih =>
    intro v view h hnd hdel f
    simp only [Document.applyAll] at h
    split at h
    · rename_i v1 happ
      have hv1 := apply_update_get v v1 op (hnd op (by simp)) (hdel op (by simp)) happ f
      have hview := ih v1 view h (fun op' h' => hnd op' (by simp [h']))
        (fun op' h' => hdel op' (by simp [h'])) f
      rw [hview, hv1]
      cases hassign : opAssigns op f with
      | some u =>
        simp only [List.filterMap_cons, hassign]
        rw [getLast?_cons_match]
        rcases hlast : (tl.filterMap (fun op => opAssigns op f)).getLast? with _ | w <;> rfl
      | none =>
        simp only [List.filterMap_cons, hassign]
    · cases h

/-- C5: in every successful build, the view is field-level last-write-wins:
each field holds the value assigned by the operation latest in the sorted
order among those whose fields mention it (the CREATE included); an
operation not mentioning a field leaves it unchanged, and a DELETE leaves
the whole view unchanged.  The two field-shape hypotheses state the
legality invariants of real operations (unique field keys; DELETEs carry no
fields). -/
theorem view_last_write_wins (ops : List OperationWithMeta) (d : Document)
    (hok : (DocumentBuilder.new ops).build = Except.ok d)
    (hleg1 : ∀ op ∈ ops, fieldsNodupOk op = true)
    (hleg2 : ∀ op ∈ ops, deleteNoFields op = true) :
    (∀ f, d.view.get f = lastWriteValue f d.meta.operations) ∧
    (∀ (v : DocumentView) (op : OperationWithMeta), op.is_delete = true →
      v.apply_update op = Except.ok v) ∧
    (∀ (v v' : DocumentView) (op : OperationWithMeta) (f : String),
      v.apply_update op = Except.ok v' → opAssigns op f = none →
      v'.get f = v.get f) := by
  have hnodup_fields : ∀ op ∈ ops, ∀ flds, op.operation.fields = some flds →
      (keysOf flds.entries).Nodup := by
    intro op hop flds hflds
    have h1 := hleg1 op hop
    rw [fieldsNodupOk, hflds] at h1
    exact of_decide_eq_true h1
  have hdelete_fields : ∀ op ∈ ops, op.is_delete = true → op.operation.fields = none := by
    intro op hop hdel
    have h2 := hleg2 op hop
    rw [deleteNoFields, hdel] at h2
    simpa [Option.isNone_iff_eq_none] using h2
  refine ⟨?_, ?_, ?_⟩
  · obtain ⟨c, hf, hschema, hres, _⟩ := build_ok_inversion ops d hok
    obtain ⟨g1, sgd, first, rest, v0, hlinks, hsort, hsorted, htf, happ, hmeta⟩ :=
      resolve_view_ok_inversion ops _ _ hres
    have hnodes : g1.nodes = (foldNodes ops Graph.new).nodes :=
      addAllLinks_nodes ops _ _ hlinks
    have hmem_sorted : ∀ op ∈ sgd.sorted, op ∈ ops := by
      intro op hop
      rw [(sort_ok_inversion g1 sgd hsort).1] at hop
      obtain ⟨k, _, hk⟩ := List.mem_filterMap.mp hop
      have hpair := getValue_some_mem _ _ _ hk
      rw [hnodes] at hpair
      rcases mem_foldNodes_subset ops Graph.new (k, op) hpair with h' | h'
      · simp [Graph.new] at h'
      · exact h'
    intro f
    have hmem_first : first ∈ ops := hmem_sorted first (by rw [hsorted]; simp)
    have hmem_rest : ∀ op ∈ rest, op ∈ ops := by
      intro op hop
      exact hmem_sorted op (by rw [hsorted]; simp [hop])
    obtain ⟨hcr, flds, hflds, hv0⟩ := try_from_ok_inversion first v0 htf
    have hview := applyAll_get rest v0 d.view happ
      (fun op h' => hnodup_fields op (hmem_rest op h'))
      (fun op h' => hdelete_fields op (hmem_rest op h')) f
    have hops : d.meta.operations = sgd.sorted := by
      rw [show d.meta = (d.view, d.meta).2 from rfl, hmeta]
    rw [hview, hops, hsorted]
    simp only [lastWriteValue, List.filterMap_cons]
    have hv0f : v0.get f = opAssigns first f := by
      simp [DocumentView.get, hv0, opAssigns, hflds]
    cases hassign : opAssigns first f with
    | some u =>
      rw [getLast?_cons_match]
      rcases hlast : (rest.filterMap (fun op => opAssigns op f)).getLast? with _ | w
      · simp [hv0f, hassign]
      · simp
    | none =>
      rcases hlast : (rest.filterMap (fun op => opAssigns op f)).getLast? with _ | w
      · simp [hv0f, hassign]
      · simp
  · intro v op hdel
    simp only [DocumentView.apply_update]
    have hupd : op.is_update = false := by
      simp only [OperationWithMeta.is_delete, Operation.is_delete] at hdel
      simp only [OperationWithMeta.is_update, Operation.is_update]
      simp only [decide_eq_true_eq] at hdel
      simp [hdel]
    rw [hupd]
    simp [hdel]
  · intro v v' op f happ hassign
    simp only [DocumentView.apply_update] at happ
    split at happ
    · injection happ with h'
      subst h'
      cases hflds : op.operation.fields with
      | some flds =>
        simp only [opAssigns, hflds] at hassign
        simp only [DocumentView.get, hflds, Option.getD]
        exact overlay_getValue_not_mem flds.entries v.entries f
          ((getValue_none_iff _ _).mp hassign)
      | none =>
        simp only [DocumentView.get, hflds, Option.getD]
        simp [OperationFields.new]
    · split at happ
      · injection happ with h'
        subst h'
        rfl
      · cases happ

/-- Witness for C5: the two-operation sample build satisfies last-write-wins
on the `name` field, via `view_last_write_wins`. -/
theorem view_last_write_wins_witness :
    (DocumentBuilder.new [sampleCreate, sampleUpdate]).build = Except.ok sampleDoc ∧
    sampleDoc.view.get "name" = lastWriteValue "name" sampleDoc.meta.operations :=
  ⟨by decide,
   (view_last_write_wins [sampleCreate, sampleUpdate] sampleDoc (by decide) (by decide)
      (by decide)).1 "name"⟩

/-! ## C1: permutation invariance of `build` -/

theorem resolve_view_forward (ops : List OperationWithMeta) (meta : DocumentMeta)
    (g' : Graph) (sgd : SortedGraphData) (first : OperationWithMeta)
    (rest : List OperationWithMeta) (v0 view : DocumentView)
    (hlinks : Document.addAllLinks (foldNodes ops Graph.new) ops = Except.ok g')
    (hsort : Graph.sort g' = Except.ok sgd)
    (hsorted : sgd.sorted = first :: rest)
    (htf : DocumentView.try_from first = Except.ok v0)
    (happ : Document.applyAll v0 rest = Except.ok view) :
    Document.resolve_view ops meta =
      Except.ok (view,
        { deleted := if ops.any (fun op => op.is_delete) then true else meta.deleted,
          edited := if 1 < ops.length then true else meta.edited,
          operations := sgd.sorted,
          current_graph_tips :=
            sgd.current_graph_tips.map (fun operation => operation.operation_id) }) := by
  simp only [Document.resolve_view, hlinks, hsort, hsorted, htf, happ]

/-- C1: `build` is permutation-invariant — for any two permutations of a
set of operations with distinct ids, if one build succeeds then the other
returns the very same `Document` (identical view, operations list, graph
tips, and deleted/edited flags). -/
theorem build_permutation_invariant (P1 P2 : List OperationWithMeta)
    (hperm : P1.Perm P2)
    (hnodup : (P1.map (fun op => op.operation_id)).Nodup)
    (d : Document) (h1 : (DocumentBuilder.new P1).build = Except.ok d) :
    (DocumentBuilder.new P2).build = Except.ok d := by
  obtain ⟨c, hf1, hschema1, hres1, hid, hauth, hsch⟩ := build_ok_inversion P1 d h1
  have hf2 : P2.filter (fun op => op.is_create) = [c] := by
    have hp := (hperm.filter (fun op => op.is_create))
    rw [hf1] at hp
    exact (List.singleton_perm.mp hp).symm
  have hschema2 : ∀ op ∈ P2, op.schema = c.schema :=
    fun op hop => hschema1 op (hperm.mem_iff.mpr hop)
  obtain ⟨g1, sgd, first, rest, v0, hlinks, hsort, hsorted, htf, happ, hmeta⟩ :=
    resolve_view_ok_inversion P1 _ _ hres1
  have hnodup2 : (P2.map (fun op => op.operation_id)).Nodup :=
    ((hperm.map (fun op => op.operation_id)).nodup_iff).mp hnodup
  obtain ⟨hpermn1, hsortn1⟩ := foldNodes_spec P1 Graph.new hnodup
    (fun k _ => rfl) (by simp [Graph.new, SortedKeys])
  obtain ⟨hpermn2, hsortn2⟩ := foldNodes_spec P2 Graph.new hnodup2
    (fun k _ => rfl) (by simp [Graph.new, SortedKeys])
  have hnodes_eq : (foldNodes P2 Graph.new).nodes = (foldNodes P1 Graph.new).nodes := by
    haveI : IsAntisymm (String × OperationWithMeta) (fun a b => a.1 < b.1) :=
      ⟨fun a b hab hba => absurd (lt_trans hab hba) (lt_irrefl _)⟩
    refine List.eq_of_perm_of_sorted ?_ hsortn2 hsortn1
    have hp1 : (foldNodes P1 Graph.new).nodes.Perm
        (P1.map (fun op => (op.operation_id, op))) := by
      simpa [Graph.new] using hpermn1
    have hp2 : (foldNodes P2 Graph.new).nodes.Perm
        (P2.map (fun op => (op.operation_id, op))) := by
      simpa [Graph.new] using hpermn2
    exact hp2.trans ((hperm.map (fun op => (op.operation_id, op))).symm.trans hp1.symm)
  have hall1 : ∀ op ∈ P1, opLinksOkN (foldNodes P1 Graph.new).nodes op = true :=
    addAllLinks_ok_all P1 _ g1 hlinks
  have hall2 : ∀ op ∈ P2, opLinksOkN (foldNodes P2 Graph.new).nodes op = true := by
    intro op hop
    rw [hnodes_eq]
    exact hall1 op (hperm.mem_iff.mpr hop)
  have hg1 : g1 = ⟨(foldNodes P1 Graph.new).nodes, allOpEdges P1⟩ := by
    have h' := addAllLinks_ok P1 (foldNodes P1 Graph.new) hall1
    rw [edges_foldNodes, show Graph.new.edges = [] from rfl, List.nil_append] at h'
    rw [hlinks] at h'
    exact Except.ok.inj h'
  have hlinks2 : Document.addAllLinks (foldNodes P2 Graph.new) P2 =
      Except.ok ⟨(foldNodes P1 Graph.new).nodes, allOpEdges P2⟩ := by
    have h' := addAllLinks_ok P2 (foldNodes P2 Graph.new) hall2
    rw [edges_foldNodes, show Graph.new.edges = [] from rfl, List.nil_append] at h'
    rw [hnodes_eq] at h'
    exact h'
  have hsort2 : Graph.sort ⟨(foldNodes P1 Graph.new).nodes, allOpEdges P2⟩ =
      Except.ok sgd := by
    rw [sort_congr _ (allOpEdges P2) (allOpEdges P1)
      (edgesEquiv_of_perm (allOpEdges_perm hperm.symm))]
    rw [← hg1]
    exact hsort
  have hres2 := resolve_view_forward P2 { operations := P2 }
    ⟨(foldNodes P1 Graph.new).nodes, allOpEdges P2⟩ sgd first rest v0 d.view
    hlinks2 hsort2 hsorted htf happ
  have hmeta' : d.meta =
      { deleted := if P2.any (fun op => op.is_delete) then true else false,
        edited := if 1 < P2.length then true else false,
        operations := sgd.sorted,
        current_graph_tips :=
          sgd.current_graph_tips.map (fun operation => operation.operation_id) } := by
    rw [show d.meta = (d.view, d.meta).2 from rfl, hmeta,
      perm_any hperm (fun op => op.is_delete), hperm.length_eq]
  rw [build_eq_resolve P2 c hf2 hschema2, hres2]
  obtain ⟨i, a, s, v, m⟩ := d
  simp only at hid hauth hsch hmeta'
  rw [hid, hauth, hsch, hmeta']

/-- Witness for C1: the three-operation sample set builds to the same
document from two different input orders, via `build_permutation_invariant`. -/
theorem build_permutation_invariant_witness :
    (DocumentBuilder.new [sampleUpdate2, sampleCreate, sampleUpdate]).build =
      Except.ok sampleDoc3 :=
  build_permutation_invariant [sampleCreate, sampleUpdate, sampleUpdate2]
    [sampleUpdate2, sampleCreate, sampleUpdate] (by decide) (by decide) sampleDoc3 (by decide)

/-! ## C4: duplicated input operations -/

theorem add_node_self (g : Graph) (op : OperationWithMeta)
    (hs : SortedKeys g.nodes) (hm : (op.operation_id, op) ∈ g.nodes) :
    g.add_node op.operation_id op = g := by
  obtain ⟨n, e⟩ := g
  simp only [Graph.add_node]
  rw [insertSorted_self _ _ _ hs hm]

/-- C4 (amended): appending a second copy of a non-CREATE operation already
contained in the input leaves the outcome of `build` identical — the same
success or error, and on success the very same document.  (Duplicating the
CREATE instead changes the outcome; see the counterexample.) -/
theorem build_duplicate_noncreate (S : List OperationWithMeta) (op : OperationWithMeta)
    (hnodup : (S.map (fun o => o.operation_id)).Nodup)
    (hmem : op ∈ S) (hnc : op.is_create = false) :
    (DocumentBuilder.new (S ++ [op])).build = (DocumentBuilder.new S).build := by
  have hfEq : (S ++ [op]).filter (fun o => o.is_create) =
      S.filter (fun o => o.is_create) := by
    rw [List.filter_append]
    simp [List.filter_cons, hnc]
  rcases hf : S.filter (fun o => o.is_create) with _ | ⟨c, _ | ⟨b, rest⟩⟩
  · rw [hf] at hfEq
    simp [DocumentBuilder.build, DocumentBuilder.new, hfEq, hf]
  · rw [hf] at hfEq
    have hcmem : c ∈ S := List.mem_of_mem_filter (by rw [hf]; simp)
    have hccr : c.is_create = true := List.of_mem_filter (l := S) (by rw [hf]; simp)
    have hcne : c ≠ op := by
      intro heq
      rw [heq, hnc] at hccr
      cases hccr
    have hlen : 1 < S.length := by
      rcases S with _ | ⟨x, _ | ⟨y, t⟩⟩
      · cases hmem
      · have hc : c = x := by simpa using hcmem
        have ho : op = x := by simpa using hmem
        exact absurd (hc.trans ho.symm) hcne
      · simp
    have hlen1 : 1 < (S ++ [op]).length := by
      rw [List.length_append]
      omega
    have hany : ∀ p : OperationWithMeta → Bool, (S ++ [op]).any p = S.any p := by
      intro p
      rw [List.any_append]
      cases hpx : p op
      · simp [hpx]
      · have hS : S.any p = true := List.any_eq_true.mpr ⟨op, hmem, by rw [hpx]⟩
        simp [hpx, hS]
    -- the node phase ignores the duplicate
    obtain ⟨hpermn, hsortn⟩ := foldNodes_spec S Graph.new hnodup
      (fun k _ => rfl) (by simp [Graph.new, SortedKeys])
    have hpairmem : (op.operation_id, op) ∈ (foldNodes S Graph.new).nodes := by
      refine hpermn.mem_iff.mpr ?_
      simp only [Graph.new, List.nil_append]
      exact List.mem_map_of_mem _ hmem
    have hnodes : foldNodes (S ++ [op]) Graph.new = foldNodes S Graph.new := by
      have h1 : foldNodes (S ++ [op]) Graph.new =
          (foldNodes S Graph.new).add_node op.operation_id op := by
        simp [foldNodes, List.foldl_append]
      rw [h1, add_node_self _ _ hsortn hpairmem]
    -- resolve agreement
    have hres : Document.resolve_view (S ++ [op]) { operations := S ++ [op] } =
        Document.resolve_view S { operations := S } := by
      cases hlk : Document.addAllLinks (foldNodes S Graph.new) S with
      | error e =>
        have hlk2 : Document.addAllLinks (foldNodes (S ++ [op]) Graph.new) (S ++ [op]) =
            Except.error e := by
          simp only [hnodes, addAllLinks_append S [op] (foldNodes S Graph.new), hlk]
        simp only [Document.resolve_view, hlk, hlk2]
      | ok g' =>
        have hall := addAllLinks_ok_all S (foldNodes S Graph.new) g' hlk
        have hg' : g' = ⟨(foldNodes S Graph.new).nodes, allOpEdges S⟩ := by
          have h' := addAllLinks_ok S (foldNodes S Graph.new) hall
          rw [edges_foldNodes, show Graph.new.edges = [] from rfl, List.nil_append] at h'
          rw [hlk] at h'
          exact Except.ok.inj h'
        have hgn : g'.nodes = (foldNodes S Graph.new).nodes := by rw [hg']
        have hone : Document.addAllLinks g' [op] =
            Except.ok ⟨g'.nodes, g'.edges ++ opEdges op⟩ := by
          have h' := addAllLinks_ok [op] g' (by
            intro o ho
            rcases List.mem_singleton.mp ho with rfl
            rw [hgn]
            exact hall o hmem)
          simpa [allOpEdges] using h'
        have hlk2 : Document.addAllLinks (foldNodes (S ++ [op]) Graph.new) (S ++ [op]) =
            Except.ok ⟨g'.nodes, g'.edges ++ opEdges op⟩ := by
          simp only [hnodes, addAllLinks_append S [op] (foldNodes S Graph.new), hlk, hone]
        have hsorteq : Graph.sort ⟨g'.nodes, g'.edges ++ opEdges op⟩ = Graph.sort g' := by
          have hsub : ∀ e ∈ opEdges op, e ∈ g'.edges := by
            intro e he
            rw [hg']
            exact mem_allOpEdges_of_mem hmem e he
          have := sort_congr g'.nodes (g'.edges ++ opEdges op) g'.edges
            (edgesEquiv_append_subset g'.edges (opEdges op) hsub)
          rw [this]
        cases hs : Graph.sort g' with
        | error e =>
          have hs2 : Graph.sort ⟨g'.nodes, g'.edges ++ opEdges op⟩ = Except.error e := by
            rw [hsorteq, hs]
          simp only [Document.resolve_view, hlk, hlk2, hs, hs2]
        | ok sgd =>
          have hs2 : Graph.sort ⟨g'.nodes, g'.edges ++ opEdges op⟩ = Except.ok sgd := by
            rw [hsorteq, hs]
          cases hsorted : sgd.sorted with
          | nil => simp only [Document.resolve_view, hlk, hlk2, hs, hs2, hsorted]
          | cons first rest =>
            cases htf : DocumentView.try_from first with
            | error e =>
              simp only [Document.resolve_view, hlk, hlk2, hs, hs2, hsorted, htf]
            | ok v0 =>
              cases happ : Document.applyAll v0 rest with
              | error e =>
                simp only [Document.resolve_view, hlk, hlk2, hs, hs2, hsorted, htf, happ]
              | ok view =>
                rw [resolve_view_forward (S ++ [op]) _ _ sgd first rest v0 view
                    hlk2 hs2 hsorted htf happ,
                  resolve_view_forward S _ g' sgd first rest v0 view hlk hs hsorted htf happ]
                rw [hany (fun o => o.is_delete), if_pos hlen1, if_pos hlen]
    simp only [DocumentBuilder.build, DocumentBuilder.new, hfEq, hf]
    rw [hany (fun operation => operation.schema != c.schema)]
    cases hsch : S.any (fun operation => operation.schema != c.schema) with
    | true => simp
    | false =>
      simp only [Bool.false_eq_true, if_false, hres]
  · rw [hf] at hfEq
    simp [DocumentBuilder.build, DocumentBuilder.new, hfEq, hf]

/-- C4 counterexample: the claim as stated fails for the CREATE operation —
`build([sampleCreate])` succeeds but `build([sampleCreate, sampleCreate])`
fails with `MoreThanOneCreateOperation`, because the duplicate is counted
twice by the CREATE check. -/
theorem build_duplicate_create_differs :
    ((DocumentBuilder.new [sampleCreate]).build).isOk = true ∧
    (DocumentBuilder.new [sampleCreate, sampleCreate]).build =
      Except.error DocumentBuilderError.moreThanOneCreateOperation :=
  ⟨by decide, by decide⟩

/-- Witness for C4: duplicating the sample UPDATE leaves the build result
unchanged, via `build_duplicate_noncreate`. -/
theorem build_duplicate_noncreate_witness :
    (DocumentBuilder.new ([sampleCreate, sampleUpdate] ++ [sampleUpdate])).build =
      (DocumentBuilder.new [sampleCreate, sampleUpdate]).build :=
  build_duplicate_noncreate [sampleCreate, sampleUpdate] sampleUpdate
    (by decide) (by decide) (by decide)

/-! ## C8: invalid operation links -/

/-- C8 (amended): when the input passes the earlier checks (exactly one
CREATE and uniform schema) and some operation references a hash that is not
the `operation_id` of any input operation, `build` fails with
`InvalidOperationLink` carrying the id of an offending operation. -/
theorem build_invalid_link (ops : List OperationWithMeta) (c : OperationWithMeta)
    (hc : ops.filter (fun op => op.is_create) = [c])
    (hschema : ∀ op ∈ ops, op.schema = c.schema)
    (hdang : ∃ op ∈ ops, danglingPrev (ops.map (fun o => o.operation_id)) op = true) :
    ∃ i, (DocumentBuilder.new ops).build =
        Except.error (DocumentBuilderError.invalidOperationLink i) ∧
      ∃ op ∈ ops, op.operation_id = i ∧
        danglingPrev (ops.map (fun o => o.operation_id)) op = true := by
  have hkeys : ∀ x, x ∈ keysOf (foldNodes ops Graph.new).nodes ↔
      x ∈ ops.map (fun o => o.operation_id) := by
    intro x
    rw [keys_foldNodes]
    simp [Graph.new, keysOf]
  have hbridge : ∀ op ∈ ops,
      (opLinksOkN (foldNodes ops Graph.new).nodes op = false ↔
        danglingPrev (ops.map (fun o => o.operation_id)) op = true) := by
    intro op hop
    have hid : hasKey (foldNodes ops Graph.new).nodes op.operation_id = true := by
      rw [hasKey_iff_mem_keysOf, hkeys]
      exact List.mem_map_of_mem _ hop
    have hb : ∀ (x y : Bool), (x = true ↔ y = true) → x = y := by
      intro x y h
      cases x <;> cases y <;> simp_all
    have hcontains : ∀ (l : List String) (a : String), l.contains a = true ↔ a ∈ l := by
      intro l a
      rw [List.contains_eq_any_beq]
      simp [List.any_eq_true, beq_iff_eq]
    have helem : ∀ p, hasKey (foldNodes ops Graph.new).nodes p =
        (ops.map (fun o => o.operation_id)).contains p := by
      intro p
      apply hb
      rw [hasKey_iff_mem_keysOf, hkeys, hcontains]
    cases hprev : op.previous_operations with
    | some ps =>
      simp only [opLinksOkN, danglingPrev, hprev]
      rw [Bool.eq_false_iff, Ne, List.all_eq_true, List.any_eq_true]
      constructor
      · intro hna
        push_neg at hna
        obtain ⟨p, hpmem, hpf⟩ := hna
        have hA : hasKey (foldNodes ops Graph.new).nodes p = false := by
          rcases hA' : hasKey (foldNodes ops Graph.new).nodes p with _ | _
          · rfl
          · exact absurd (by rw [hA', hid]; rfl) hpf
        refine ⟨p, hpmem, ?_⟩
        rw [← helem p, hA]
        rfl
      · rintro ⟨p, hpmem, hpf⟩ hall
        have h2 := hall p hpmem
        rw [hid, Bool.and_true] at h2
        rw [← helem p] at hpf
        rw [h2] at hpf
        simp at hpf
    | none => simp [opLinksOkN, danglingPrev, hprev]
  obtain ⟨w, hw, hwd⟩ := hdang
  obtain ⟨i, heq, op', hop', hid', hfl'⟩ :=
    addAllLinks_fail ops (foldNodes ops Graph.new) ⟨w, hw, (hbridge w hw).mpr hwd⟩
  refine ⟨i, ?_, op', hop', hid', (hbridge op' hop').mp hfl'⟩
  rw [build_eq_resolve ops c hc hschema]
  have hres : Document.resolve_view ops { operations := ops } =
      Except.error (DocumentBuilderError.invalidOperationLink i) := by
    simp only [Document.resolve_view]
    rw [heq]
  rw [hres]

/-- C8 counterexample: the claim as stated fails — an input consisting only
of an UPDATE with a dangling `previous_operations` reference makes `build`
fail with `NoCreateOperation`, not `InvalidOperationLink`, because the
CREATE check runs first. -/
theorem dangling_link_error_shadowed :
    danglingPrev ([sampleDangling].map (fun o => o.operation_id)) sampleDangling = true ∧
    (DocumentBuilder.new [sampleDangling]).build =
      Except.error DocumentBuilderError.noCreateOperation ∧
    isInvalidLinkError ((DocumentBuilder.new [sampleDangling]).build) = false :=
  ⟨by decide, by decide, by decide⟩

/-- Witness for C8: the sample CREATE plus the dangling UPDATE fail with
`InvalidOperationLink` naming an offending operation, via
`build_invalid_link`. -/
theorem build_invalid_link_witness :
    ∃ i, (DocumentBuilder.new [sampleCreate, sampleDangling]).build =
        Except.error (DocumentBuilderError.invalidOperationLink i) ∧
      ∃ op ∈ [sampleCreate, sampleDangling], op.operation_id = i ∧
        danglingPrev ([sampleCreate, sampleDangling].map (fun o => o.operation_id)) op = true :=
  build_invalid_link [sampleCreate, sampleDangling] sampleCreate (by decide)
    (by decide) ⟨sampleDangling, by decide, by decide⟩

/-! ## C7: canonical encoding of `OperationFields` -/

theorem addAll_spec (l : List (String × OperationValue)) :
    ∀ f : OperationFields,
      (l.map Prod.fst).Nodup →
      (∀ k ∈ l.map Prod.fst, hasKey f.entries k = false) →
      SortedKeys f.entries →
      ∃ f', addAll f l = some f' ∧ f'.entries.Perm (f.entries ++ l) ∧
        SortedKeys f'.entries := by
  induction l with
  | nil =>
    intro f _ _ hs
    exact ⟨f, rfl, by simp, hs⟩
  | cons hd tl ih =>
    intro f hnodup hdisj hs
    obtain ⟨k, v⟩ := hd
    have hk : hasKey f.entries k = false := hdisj k (by simp)
    have hknotin : k ∉ keysOf f.entries := by
      intro hmem
      rw [← hasKey_iff_mem_keysOf] at hmem
      simp [hk] at hmem
    have hadd : f.add k v = (Except.ok (), ⟨insertSorted k v f.entries⟩) := by
      simp [OperationFields.add, hk]
    have hnodup' : (tl.map Prod.fst).Nodup := (List.nodup_cons.mp (by simpa using hnodup)).2
    have hknotintl : k ∉ tl.map Prod.fst := (List.nodup_cons.mp (by simpa using hnodup)).1
    have hdisj' : ∀ k' ∈ tl.map Prod.fst,
        hasKey (insertSorted k v f.entries) k' = false := by
      intro k' hk'
      rcases hc : hasKey (insertSorted k v f.entries) k' with _ | _
      · rfl
      · exfalso
        have hmem : k' ∈ keysOf (insertSorted k v f.entries) :=
          (hasKey_iff_mem_keysOf _ _).mp hc
        rcases keysOf_insertSorted_subset k v f.entries k' hmem with h' | h'
        · exact hknotintl (h' ▸ hk')
        · have hfalse := hdisj k' (by simp [hk'])
          rw [← hasKey_iff_mem_keysOf] at h'
          simp [hfalse] at h'
    obtain ⟨f', heq, hperm, hsf⟩ :=
      ih ⟨insertSorted k v f.entries⟩ hnodup' hdisj'
        (insertSorted_sorted _ _ _ hs)
    refine ⟨f', by simp [addAll, hadd, heq], ?_, hsf⟩
    have h1p : f'.entries.Perm (insertSorted k v f.entries ++ tl) := by simpa using hperm
    have h2p : (insertSorted k v f.entries ++ tl).Perm ((k, v) :: (f.entries ++ tl)) := by
      simpa using (insertSorted_perm k v f.entries hknotin).append_right tl
    have h3p : ((k, v) :: (f.entries ++ tl)).Perm (f.entries ++ (k, v) :: tl) :=
      List.perm_middle.symm
    exact h1p.trans (h2p.trans h3p)

/-- C7: two `OperationFields` containers built by `add` calls from the same
contents in any two orders are equal, and operations carrying them have
byte-for-byte identical CBOR encodings (iteration is in sorted key
order). -/
theorem canonical_fields_encoding (l1 l2 : List (String × OperationValue))
    (hperm : l1.Perm l2) (hnodup : (l1.map Prod.fst).Nodup)
    (f1 f2 : OperationFields)
    (h1 : addAll OperationFields.new l1 = some f1)
    (h2 : addAll OperationFields.new l2 = some f2)
    (action : OperationAction) (schema : Hash) (version : OperationVersion)
    (previous_operations : Option (List Hash)) (id : Option Hash) :
    f1 = f2 ∧
      Operation.to_cbor ⟨action, schema, version, previous_operations, id, some f1⟩ =
        Operation.to_cbor ⟨action, schema, version, previous_operations, id, some f2⟩ := by
  have hnodup2 : (l2.map Prod.fst).Nodup := (hperm.map Prod.fst).nodup_iff.mp hnodup
  obtain ⟨f1', e1, p1, s1⟩ := addAll_spec l1 OperationFields.new hnodup
    (fun k _ => rfl) (by simp [OperationFields.new, SortedKeys])
  obtain ⟨f2', e2, p2, s2⟩ := addAll_spec l2 OperationFields.new hnodup2
    (fun k _ => rfl) (by simp [OperationFields.new, SortedKeys])
  rw [h1] at e1
  rw [h2] at e2
  obtain rfl : f1 = f1' := Option.some.inj e1
  obtain rfl : f2 = f2' := Option.some.inj e2
  haveI : IsAntisymm (String × OperationValue) (fun a b => a.1 < b.1) :=
    ⟨fun a b hab hba => absurd (lt_trans hab hba) (lt_irrefl _)⟩
  have hentries : f1.entries = f2.entries := by
    have p1' : f1.entries.Perm l1 := by simpa [OperationFields.new] using p1
    have p2' : f2.entries.Perm l2 := by simpa [OperationFields.new] using p2
    exact List.eq_of_perm_of_sorted (p1'.trans (hperm.trans p2'.symm)) s1 s2
  have hf : f1 = f2 := by
    obtain ⟨e⟩ := f1
    obtain ⟨e'⟩ := f2
    simpa using hentries
  exact ⟨hf, by rw [hf]⟩

/-- Witness for C7: the contents `a ↦ 3, b ↦ "p"` added in either order
give the same container and identical encodings, via
`canonical_fields_encoding`. -/
theorem canonical_fields_encoding_witness :
    (⟨[("a", OperationValue.integer 3), ("b", OperationValue.text "p")]⟩ : OperationFields) =
      ⟨[("a", OperationValue.integer 3), ("b", OperationValue.text "p")]⟩ ∧
    Operation.to_cbor ⟨OperationAction.create, "s", OperationVersion.vDefault, none, none,
        some ⟨[("a", OperationValue.integer 3), ("b", OperationValue.text "p")]⟩⟩ =
      Operation.to_cbor ⟨OperationAction.create, "s", OperationVersion.vDefault, none, none,
        some ⟨[("a", OperationValue.integer 3), ("b", OperationValue.text "p")]⟩⟩ :=
  canonical_fields_encoding
    [("b", OperationValue.text "p"), ("a", OperationValue.integer 3)]
    [("a", OperationValue.integer 3), ("b", OperationValue.text "p")]
    (List.Perm.swap _ _ _) (by decide) _ _ (by decide) (by decide)
    OperationAction.create "s" OperationVersion.vDefault none none

/-- Witness for C10: adding the existing key `a` fails with `FieldDuplicate`
and leaves the container unchanged, via `fields_mutators_atomic`. -/
theorem fields_mutators_atomic_witness :
    (OperationFields.add ⟨[("a", OperationValue.integer 1)]⟩ "a"
        (OperationValue.integer 2)).1 =
      Except.error OperationFieldsError.fieldDuplicate ∧
    (OperationFields.add ⟨[("a", OperationValue.integer 1)]⟩ "a"
        (OperationValue.integer 2)).2 = ⟨[("a", OperationValue.integer 1)]⟩ := by
  have h := fields_mutators_atomic ⟨[("a", OperationValue.integer 1)]⟩ "a"
    (OperationValue.integer 2)
  have h1 := h.1.mpr (by decide)
  exact ⟨h1, (h.2.1 _ h1).2⟩

end P2Panda
